import Mathlib

/-!
Verification development for the hot-tour-radar backend (Go sources under
backend/ and internal/).  Go strings are modelled as lists of runes
(`List Char`); the functions below are shallow embeddings of the Go
functions of the same name.  Machine integers are modelled as `Int` / `Nat`
(no overflow is relevant to any statement proved here), instants are
nanoseconds since the Unix epoch, and the Go standard-library predicates
over Unicode categories are modelled faithfully on the ASCII, Latin-1 and
Cyrillic ranges that the repository's data and tests exercise (all other
code points are classified as unassigned).
-/

set_option maxHeartbeats 1000000
set_option maxRecDepth 10000

/-- Go strings viewed as rune sequences. -/
abbrev Str := List Char

/-- Rune list of a Lean string literal. -/
def str (s : String) : Str := s.data

/-- Model of Go `regexp` class `\s`, which is exactly `[\t\n\f\r ]`. -/
def goRegexSpace (c : Char) : Bool :=
  c = ' ' || c = '\t' || c = '\n' || c = '\x0c' || c = '\r'

/-- Model of Go `unicode.IsSpace` (the Unicode White_Space property). -/
def goIsSpace (c : Char) : Bool :=
  let n := c.toNat
  n = 0x09 || n = 0x0a || n = 0x0b || n = 0x0c || n = 0x0d || n = 0x20 ||
  n = 0x85 || n = 0xa0 || n = 0x1680 || (0x2000 ≤ n && n ≤ 0x200a) ||
  n = 0x2028 || n = 0x2029 || n = 0x202f || n = 0x205f || n = 0x3000

/-- Model of Go `unicode.IsLetter` / regexp `\p{L}` on the ASCII, Latin-1
and Cyrillic ranges (code points outside these blocks are treated as
non-letters). The Cyrillic block excludes U+0482–U+0489 (a currency sign
and combining marks), as the Unicode tables do. -/
def goIsLetter (c : Char) : Bool :=
  let n := c.toNat
  (0x41 ≤ n && n ≤ 0x5a) || (0x61 ≤ n && n ≤ 0x7a) ||
  n = 0xaa || n = 0xb5 || n = 0xba ||
  (0xc0 ≤ n && n ≤ 0xd6) || (0xd8 ≤ n && n ≤ 0xf6) || (0xf8 ≤ n && n ≤ 0xff) ||
  (0x400 ≤ n && n ≤ 0x481) || (0x48a ≤ n && n ≤ 0x52f)

/-- Model of Go `unicode.IsNumber` / regexp `\p{N}` on the ASCII and
Latin-1 ranges (digits plus the Latin-1 superscripts and fractions). -/
def goIsNumber (c : Char) : Bool :=
  let n := c.toNat
  (0x30 ≤ n && n ≤ 0x39) ||
  n = 0xb2 || n = 0xb3 || n = 0xb9 || (0xbc ≤ n && n ≤ 0xbe)

/-- Model of the simple case folding used by Go `strings.ToLower` on the
ASCII, Latin-1 and Cyrillic ranges. -/
def goToLower (c : Char) : Char :=
  let n := c.toNat
  if 0x41 ≤ n && n ≤ 0x5a then Char.ofNat (n + 32)
  else if 0xc0 ≤ n && n ≤ 0xde && n ≠ 0xd7 then Char.ofNat (n + 32)
  else if 0x400 ≤ n && n ≤ 0x40f then Char.ofNat (n + 80)
  else if 0x410 ≤ n && n ≤ 0x42f then Char.ofNat (n + 32)
  else c

/-- Characters classified as punctuation by the worker's cleaning regexp
`[^\p{L}\p{N}\s]+`: neither letter nor number nor regexp whitespace. -/
def goPunct (c : Char) : Bool :=
  !(goIsLetter c || goIsNumber c || goRegexSpace c)

theorem goIsLetter_not_space {c : Char} (h : goIsLetter c = true) :
    goIsSpace c = false := by
  simp only [goIsLetter, Bool.or_eq_true, decide_eq_true_eq, Bool.and_eq_true] at h
  simp only [goIsSpace, Bool.or_eq_true, decide_eq_true_eq, Bool.and_eq_true,
    Bool.or_eq_false_iff, decide_eq_false_iff_not, Bool.and_eq_false_iff]
  omega

theorem goIsNumber_not_space {c : Char} (h : goIsNumber c = true) :
    goIsSpace c = false := by
  simp only [goIsNumber, Bool.or_eq_true, decide_eq_true_eq, Bool.and_eq_true] at h
  simp only [goIsSpace, Bool.or_eq_true, decide_eq_true_eq, Bool.and_eq_true,
    Bool.or_eq_false_iff, decide_eq_false_iff_not, Bool.and_eq_false_iff]
  omega

theorem goRegexSpace_not_letter {c : Char} (h : goRegexSpace c = true) :
    goIsLetter c = false := by
  simp only [goRegexSpace, Bool.or_eq_true, decide_eq_true_eq] at h
  rcases h with ((((h | h) | h) | h) | h) <;> subst h <;> decide

theorem goRegexSpace_not_number {c : Char} (h : goRegexSpace c = true) :
    goIsNumber c = false := by
  simp only [goRegexSpace, Bool.or_eq_true, decide_eq_true_eq] at h
  rcases h with ((((h | h) | h) | h) | h) <;> subst h <;> decide

theorem goIsLetter_not_regexSpace {c : Char} (h : goIsLetter c = true) :
    goRegexSpace c = false := by
  cases hr : goRegexSpace c
  · rfl
  · rw [goRegexSpace_not_letter hr] at h; cases h

theorem goIsNumber_not_regexSpace {c : Char} (h : goIsNumber c = true) :
    goRegexSpace c = false := by
  cases hr : goRegexSpace c
  · rfl
  · rw [goRegexSpace_not_number hr] at h; cases h

theorem goRegexSpace_isSpace {c : Char} (h : goRegexSpace c = true) :
    goIsSpace c = true := by
  simp only [goRegexSpace, Bool.or_eq_true, decide_eq_true_eq] at h
  rcases h with ((((h | h) | h) | h) | h) <;> subst h <;> decide

theorem space_regexSpace : goRegexSpace ' ' = true := by decide

theorem space_not_letter : goIsLetter ' ' = false := by decide

theorem space_not_number : goIsNumber ' ' = false := by decide

theorem amp_not_letter_number : goIsLetter '&' = false ∧ goIsNumber '&' = false := by
  decide

theorem colon_not_letter_number : goIsLetter ':' = false ∧ goIsNumber ':' = false := by
  decide

/-- Go `strings.TrimSpace` (left half): drop leading `unicode.IsSpace` runes. -/
def trimLeft (s : Str) : Str := s.dropWhile goIsSpace

/-- Go `strings.TrimSpace` (right half): drop trailing `unicode.IsSpace` runes. -/
def trimRight (s : Str) : Str := (s.reverse.dropWhile goIsSpace).reverse

/-- Go `strings.TrimSpace`. -/
def trimSpace (s : Str) : Str := trimRight (trimLeft s)

/-- Go `strings.TrimFunc`: trim runes satisfying `p` from both ends. -/
def trimFunc (p : Char → Bool) (s : Str) : Str :=
  ((s.dropWhile p).reverse.dropWhile p).reverse

/-- Accumulator form of Go `strings.Fields` (`acc` holds the reversed
word in progress), structurally recursive so that it evaluates. -/
def fieldsAux : Str → Str → List Str
  | [], acc => if acc = [] then [] else [acc.reverse]
  | c :: cs, acc =>
    if goIsSpace c then
      if acc = [] then fieldsAux cs [] else acc.reverse :: fieldsAux cs []
    else fieldsAux cs (c :: acc)

/-- Go `strings.Fields`: split around runs of `unicode.IsSpace` runes. -/
def goFields (s : Str) : List Str := fieldsAux s []

theorem fieldsAux_word {acc : Str} (cs : Str) (hacc : acc ≠ []) :
    fieldsAux cs acc =
      (acc.reverse ++ cs.takeWhile (fun d => !goIsSpace d)) ::
        goFields (cs.dropWhile (fun d => !goIsSpace d)) := by
  induction cs generalizing acc with
  | nil => simp [fieldsAux, goFields, hacc]
  | cons c cs2 ih =>
    by_cases hc : goIsSpace c
    · simp [fieldsAux, hc, hacc, List.takeWhile_cons, List.dropWhile_cons, goFields]
    · have h2 : (c :: acc) ≠ [] := by simp
      simp only [fieldsAux, if_neg hc, ih h2, List.takeWhile_cons, List.dropWhile_cons,
        hc, Bool.not_false, if_pos, List.reverse_cons]
      simp

theorem goFields_nil : goFields [] = [] := rfl

theorem goFields_cons_space {c : Char} (cs : Str) (hc : goIsSpace c = true) :
    goFields (c :: cs) = goFields cs := by
  simp [goFields, fieldsAux, hc]

theorem goFields_cons_word {c : Char} (cs : Str) (hc : goIsSpace c = false) :
    goFields (c :: cs) =
      (c :: cs.takeWhile (fun d => !goIsSpace d)) ::
        goFields (cs.dropWhile (fun d => !goIsSpace d)) := by
  have : goFields (c :: cs) = fieldsAux cs [c] := by
    simp [goFields, fieldsAux, hc]
  rw [this, fieldsAux_word cs (by simp)]
  simp

/-- Go `strings.Join(words, " ")`. -/
def joinSp : List Str → Str
  | [] => []
  | [w] => w
  | w :: ws => w ++ ' ' :: joinSp ws

/-- Replace every maximal nonempty run of runes satisfying `p` by the single
rune `sub`.  This is Go `regexp.ReplaceAllString` for a pattern of the form
`[class]+` with a one-rune replacement. -/
def squashRuns (p : Char → Bool) (sub : Char) : Str → Str
  | [] => []
  | [c] => if p c then [sub] else [c]
  | c1 :: c2 :: rest =>
    if p c1 && p c2 then squashRuns p sub (c2 :: rest)
    else (if p c1 then sub else c1) :: squashRuns p sub (c2 :: rest)

theorem squashRuns_mem {p : Char → Bool} {sub : Char} {s : Str} {c : Char}
    (h : c ∈ squashRuns p sub s) : c = sub ∨ (p c = false ∧ c ∈ s) := by
  induction s with
  | nil => simp [squashRuns] at h
  | cons c1 rest ih =>
    match rest with
    | [] =>
      simp only [squashRuns] at h
      by_cases hp : p c1 = true
      · simp [hp] at h; exact Or.inl h
      · simp [hp] at h; subst h
        exact Or.inr ⟨by simpa using hp, by simp⟩
    | c2 :: rest2 =>
      simp only [squashRuns] at h
      by_cases hb : (p c1 && p c2) = true
      · simp only [hb, if_true] at h
        rcases ih h with h1 | ⟨h1, h2⟩
        · exact Or.inl h1
        · exact Or.inr ⟨h1, List.mem_cons_of_mem _ h2⟩
      · simp only [hb, if_false, Bool.not_eq_true] at h
        rcases List.mem_cons.mp h with h1 | h1
        · by_cases hp : p c1 = true
          · simp [hp] at h1; exact Or.inl h1
          · simp [hp] at h1; subst h1
            exact Or.inr ⟨by simpa using hp, by simp⟩
        · rcases ih h1 with h2 | ⟨h2, h3⟩
          · exact Or.inl h2
          · exact Or.inr ⟨h2, List.mem_cons_of_mem _ h3⟩

theorem squashRuns_cons_of_not {p : Char → Bool} {sub : Char} {c : Char}
    (rest : Str) (hc : p c = false) :
    squashRuns p sub (c :: rest) = c :: squashRuns p sub rest := by
  match rest with
  | [] => simp [squashRuns, hc]
  | c2 :: rest2 => simp [squashRuns, hc]

/-- A string left unchanged by run squashing: every `p`-rune is already
`sub` and no two adjacent runes satisfy `p`. -/
theorem squashRuns_fixpoint {p : Char → Bool} {sub : Char} {s : Str}
    (hall : ∀ c ∈ s, p c = true → c = sub)
    (hchain : s.Chain' (fun a b => ¬(p a = true ∧ p b = true))) :
    squashRuns p sub s = s := by
  induction s with
  | nil => rfl
  | cons c1 rest ih =>
    match rest with
    | [] =>
      simp only [squashRuns]
      by_cases hp : p c1 = true
      · rw [if_pos hp, hall c1 (by simp) hp]
      · rw [if_neg hp]
    | c2 :: rest2 =>
      have hch2 : (c2 :: rest2).Chain' (fun a b => ¬(p a = true ∧ p b = true)) :=
        (List.chain'_cons'.mp hchain).2
      have hnadj : ¬(p c1 = true ∧ p c2 = true) := by
        have := List.chain'_cons.mp hchain
        exact this.1
      have hrec := ih (fun c hc h => hall c (List.mem_cons_of_mem _ hc) h) hch2
      simp only [squashRuns]
      by_cases hb : (p c1 && p c2) = true
      · exact absurd (by simpa [Bool.and_eq_true] using hb) hnadj
      · rw [if_neg hb, hrec]
        by_cases hp : p c1 = true
        · rw [if_pos hp, hall c1 (by simp) hp]
        · rw [if_neg hp]

theorem squashRuns_chain {p : Char → Bool} {sub : Char} (s : Str) :
    (squashRuns p sub s).Chain' (fun a b => ¬(p a = true ∧ p b = true)) := by
  induction s with
  | nil => simp [squashRuns]
  | cons c1 rest ih =>
    match rest with
    | [] =>
      simp only [squashRuns]
      by_cases hp : p c1 = true <;> simp [hp]
    | c2 :: rest2 =>
      simp only [squashRuns]
      by_cases hb : (p c1 && p c2) = true
      · rw [if_pos hb]; exact ih
      · rw [if_neg hb]
        rw [Bool.and_eq_true] at hb
        by_cases hp1 : p c1 = true
        · have hp2 : p c2 = false := by
            cases h2 : p c2
            · rfl
            · exact absurd ⟨hp1, h2⟩ hb
          rw [if_pos hp1]
          rw [squashRuns_cons_of_not rest2 hp2] at ih ⊢
          exact List.chain'_cons'.mpr
            ⟨fun y hy => by
              simp only [List.head?_cons, Option.mem_def, Option.some.injEq] at hy
              subst hy
              intro hcontra
              exact absurd hcontra.2 (by simp [hp2]), ih⟩
        · rw [if_neg hp1]
          exact List.chain'_cons'.mpr
            ⟨fun y hy => fun hcontra => absurd hcontra.1 hp1, ih⟩

/-- The `seen`-map pattern used throughout the Go sources: keep the first
occurrence of each element, in order.  `seen` accumulates what was kept. -/
def dedupAux {α : Type} [DecidableEq α] : List α → List α → List α
  | [], _ => []
  | x :: xs, seen => if x ∈ seen then dedupAux xs seen else x :: dedupAux xs (x :: seen)

/-- First-occurrence-preserving de-duplication. -/
def dedupFirst {α : Type} [DecidableEq α] (l : List α) : List α := dedupAux l []

theorem mem_dedupAux {α : Type} [DecidableEq α] {x : α} :
    ∀ {l seen : List α}, x ∈ dedupAux l seen ↔ (x ∈ l ∧ x ∉ seen) := by
  intro l
  induction l with
  | nil => intro seen; simp [dedupAux]
  | cons y ys ih =>
    intro seen
    by_cases hy : y ∈ seen
    · simp only [dedupAux, if_pos hy, ih, List.mem_cons]
      constructor
      · rintro ⟨h1, h2⟩; exact ⟨Or.inr h1, h2⟩
      · rintro ⟨h1 | h1, h2⟩
        · subst h1; exact absurd hy h2
        · exact ⟨h1, h2⟩
    · simp only [dedupAux, if_neg hy, List.mem_cons, ih]
      constructor
      · rintro (h1 | ⟨h1, h2⟩)
        · subst h1; exact ⟨Or.inl rfl, hy⟩
        · simp only [List.mem_cons, not_or] at h2
          exact ⟨Or.inr h1, h2.2⟩
      · rintro ⟨h1 | h1, h2⟩
        · subst h1; exact Or.inl rfl
        · by_cases hx : x = y
          · subst hx; exact Or.inl rfl
          · exact Or.inr ⟨h1, by simp [hx, h2]⟩

theorem mem_dedupFirst {α : Type} [DecidableEq α] {x : α} {l : List α} :
    x ∈ dedupFirst l ↔ x ∈ l := by
  simp [dedupFirst, mem_dedupAux]

theorem nodup_dedupAux {α : Type} [DecidableEq α] :
    ∀ {l seen : List α}, (dedupAux l seen).Nodup := by
  intro l
  induction l with
  | nil => intro seen; simp [dedupAux]
  | cons y ys ih =>
    intro seen
    by_cases hy : y ∈ seen
    · simpa [dedupAux, if_pos hy] using ih
    · simp only [dedupAux, if_neg hy, List.nodup_cons]
      refine ⟨fun hmem => ?_, ih⟩
      exact absurd (mem_dedupAux.mp hmem).2 (by simp)

theorem nodup_dedupFirst {α : Type} [DecidableEq α] {l : List α} :
    (dedupFirst l).Nodup := nodup_dedupAux

/-- Entity table modelling the part of Go `html.UnescapeString` exercised by
this repository (named and numeric entities in `&name;` form). -/
def entityTable : List (Str × Char) :=
  [(str "amp;", '&'), (str "lt;", '<'), (str "gt;", '>'),
   (str "quot;", Char.ofNat 34), (str "#39;", Char.ofNat 39),
   (str "nbsp;", Char.ofNat 0xa0)]

/-- Try to read one entity body (the part after `&`). -/
def findEntity (s : Str) : Option (Nat × Char) :=
  entityTable.findSome? fun e =>
    if e.1.isPrefixOf s then some (e.1.length, e.2) else none

/-- Skip-counter form of `htmlUnescape`: a positive counter means the scan
is inside an already-decoded entity and consumes silently. -/
def htmlUnescapeAux : Str → Nat → Str
  | [], _ => []
  | _ :: rest, Nat.succ k => htmlUnescapeAux rest k
  | c :: rest, 0 =>
    if c = '&' then
      match findEntity rest with
      | some p => p.2 :: htmlUnescapeAux rest p.1
      | none => '&' :: htmlUnescapeAux rest 0
    else c :: htmlUnescapeAux rest 0

/-- Model of Go `html.UnescapeString`: decode `&entity;` sequences, leave
everything else (including a bare `&`) unchanged. -/
def htmlUnescape (s : Str) : Str := htmlUnescapeAux s 0

theorem htmlUnescapeAux_skip : ∀ (k : Nat) (s : Str),
    htmlUnescapeAux s k = htmlUnescapeAux (s.drop k) 0 := by
  intro k
  induction k with
  | zero => intro s; simp
  | succ n ih =>
    intro s
    match s with
    | [] => simp [htmlUnescapeAux]
    | c :: rest => simpa [htmlUnescapeAux] using ih rest

theorem htmlUnescape_cons_other {c : Char} (rest : Str) (hc : c ≠ '&') :
    htmlUnescape (c :: rest) = c :: htmlUnescape rest := by
  simp [htmlUnescape, htmlUnescapeAux, hc]

/-- Leftmost match of the Go regexp `https?://[^\s]+` at the head of `s`:
`some n` means the first `n` runes match.  The two scheme alternatives are
mutually exclusive, and `[^\s]+` greedily takes the maximal nonempty run of
non-`\s` runes. -/
def urlMatchLen (s : Str) : Option Nat :=
  if (str "http://").isPrefixOf s then
    let run := (s.drop 7).takeWhile (fun c => !goRegexSpace c)
    if run.length = 0 then none else some (7 + run.length)
  else if (str "https://").isPrefixOf s then
    let run := (s.drop 8).takeWhile (fun c => !goRegexSpace c)
    if run.length = 0 then none else some (8 + run.length)
  else none

/-- Skip-counter form of `RemoveURLs`: after emitting the space for a match
of length `len`, the remaining `len - 1` runes of the match are consumed
silently. -/
def removeURLsAux : Str → Nat → Str
  | [], _ => []
  | _ :: rest, Nat.succ k => removeURLsAux rest k
  | c :: rest, 0 =>
    match urlMatchLen (c :: rest) with
    | some len => ' ' :: removeURLsAux rest (len - 1)
    | none => c :: removeURLsAux rest 0

/-- Model of Go `RemoveURLs`: replace each non-overlapping leftmost match of
the URL regexp with a single space. -/
def RemoveURLs (s : Str) : Str := removeURLsAux s 0

theorem removeURLsAux_skip : ∀ (k : Nat) (s : Str),
    removeURLsAux s k = removeURLsAux (s.drop k) 0 := by
  intro k
  induction k with
  | zero => intro s; simp
  | succ n ih =>
    intro s
    match s with
    | [] => simp [removeURLsAux]
    | c :: rest => simpa [removeURLsAux] using ih rest

theorem RemoveURLs_cons_match {c : Char} {rest : Str} {len : Nat}
    (h : urlMatchLen (c :: rest) = some len) :
    RemoveURLs (c :: rest) = ' ' :: RemoveURLs (rest.drop (len - 1)) := by
  simp [RemoveURLs, removeURLsAux, h, removeURLsAux_skip]

theorem RemoveURLs_cons_nomatch {c : Char} {rest : Str}
    (h : urlMatchLen (c :: rest) = none) :
    RemoveURLs (c :: rest) = c :: RemoveURLs rest := by
  simp [RemoveURLs, removeURLsAux, h]

/-- Skip-counter form of the URL match collector (Go `FindAllString`). -/
def urlMatchesAux : Str → Nat → List Str
  | [], _ => []
  | _ :: rest, Nat.succ k => urlMatchesAux rest k
  | c :: rest, 0 =>
    match urlMatchLen (c :: rest) with
    | some len => ((c :: rest).take len) :: urlMatchesAux rest (len - 1)
    | none => urlMatchesAux rest 0

/-- All URL matches of the scan, in order (Go `FindAllString`). -/
def urlMatches (s : Str) : List Str := urlMatchesAux s 0

/-- Model of Go `ExtractURLs`: all matches, de-duplicated preserving first
occurrence. -/
def ExtractURLs (input : Str) : List Str :=
  if input = [] then [] else dedupFirst (urlMatches input)

/-- Model of Go `CleanText`: decode HTML entities, remove URLs, replace
runs of `[^\p{L}\p{N}\s]+` by a space, collapse `\s+` runs to a space,
trim. -/
def CleanText (input : Str) : Str :=
  if input = [] then []
  else trimSpace (squashRuns goRegexSpace ' '
    (squashRuns goPunct ' ' (RemoveURLs (htmlUnescape input))))

/-- The worker's stop-word set. -/
def stopwords : List Str :=
  [str "и", str "в", str "на", str "с", str "по", str "к",
   str "a", str "an", str "the", str "to", str "in", str "for",
   str "что", str "как", str "это", str "из", str "от", str "до"]

/-- Runes trimmed from token ends by `ExtractKeywords` (Go
`strings.TrimFunc` with not-letter-and-not-number). -/
def notAlnum (c : Char) : Bool := !(goIsLetter c || goIsNumber c)

/-- The multiset of tokens that survive the keyword filters: fields of the
lowercased clean text, end-trimmed, of rune length at least `minLen` and not
stop-words. -/
def qualifyingTokens (text : Str) (minLen : Int) : List Str :=
  ((goFields ((CleanText text).map goToLower)).map (trimFunc notAlnum)).filter
    (fun t => !(decide ((t.length : Int) < minLen)) && !(decide (t ∈ stopwords)))

/-- The ordering used by `ExtractKeywords`' `sort.Slice` comparator:
count descending, then word ascending in (byte- = rune-)lexicographic
order. -/
def kwRel (p q : Str × Nat) : Prop := q.2 < p.2 ∨ (p.2 = q.2 ∧ p.1 ≤ q.1)

instance kwRel.decidable : DecidableRel kwRel := fun p q => by
  unfold kwRel; infer_instance

/-- The `(word, count)` pairs over the distinct qualifying tokens (the
iteration over Go's `freq` map). -/
def kwPairs (text : Str) (minLen : Int) : List (Str × Nat) :=
  (dedupFirst (qualifyingTokens text minLen)).map
    (fun w => (w, (qualifyingTokens text minLen).count w))

/-- The pairs sorted by the comparator (Go `sort.Slice`; the keys are
distinct, so the order is the unique sorted one despite the unstable
sort). -/
def kwSorted (text : Str) (minLen : Int) : List (Str × Nat) :=
  (kwPairs text minLen).insertionSort kwRel

/-- The cut Go computes: `max := limit; if max <= 0 || max > len(pairs)
then max = len(pairs)`. -/
def kwMax (text : Str) (limit minLen : Int) : Nat :=
  if limit ≤ 0 ∨ ((kwPairs text minLen).length : Int) < limit
  then (kwPairs text minLen).length else limit.toNat

/-- Model of Go `ExtractKeywords`. -/
def ExtractKeywords (text : Str) (limit minLen : Int) : List Str :=
  if (CleanText text).map goToLower = [] then []
  else if qualifyingTokens text minLen = [] then []
  else ((kwSorted text minLen).take (kwMax text limit minLen)).map Prod.fst

/-- The sentence terminators of `GenerateTitleFromText`. -/
def termChar (c : Char) : Bool := c = '.' || c = '!' || c = '?'

/-- Go `strings.IndexAny(s, ".!?")`, rune-indexed; the terminators are
ASCII, so the byte index is positive or zero or absent exactly when the
rune index is. -/
def indexAnyTerm : Str → Int
  | [] => -1
  | c :: cs =>
    if termChar c then 0
    else if indexAnyTerm cs < 0 then -1 else indexAnyTerm cs + 1

/-- Model of Go `GenerateTitleFromText`. -/
def GenerateTitleFromText (text : Str) (maxWords : Int) : Str :=
  if text = [] then []
  else
    let noURLs := RemoveURLs text
    let se := indexAnyTerm noURLs
    let firstSentence := if 0 < se then trimSpace (noURLs.take se.toNat) else noURLs
    let words := goFields firstSentence
    if words = [] then []
    else if 0 < maxWords ∧ maxWords < (words.length : Int) then
      joinSp (words.take maxWords.toNat) ++ str "..."
    else joinSp words

example : CleanText (str "Hello!!!   мир") = str "Hello мир" := by decide
example : CleanText (str "foo\n\nbar\t baz") = str "foo bar baz" := by decide
example : CleanText (str "Check https://example.com for info") = str "Check for info" := by
  decide
example : RemoveURLs (str "Check https://example.com for more") = str "Check   for more" := by
  decide
example : RemoveURLs (str "https://example.com") = str " " := by decide
example : ExtractURLs (str "https://example.com and https://example.com again") =
    [str "https://example.com"] := by decide
example : ExtractURLs (str "Go to https://example.com or http://test.org now") =
    [str "https://example.com", str "http://test.org"] := by decide
example : ExtractKeywords (str "Тур Тур поездка поездка поездка море и и солнце") 3 3 =
    [str "поездка", str "тур", str "море"] := by decide
example :
    GenerateTitleFromText (str "Горящий тур в Египет! Всего 30000 рублей. Вылет завтра.") 10 =
    str "Горящий тур в Египет" := by decide
example :
    GenerateTitleFromText
      (str "Супер предложение по турам в разные страны мира с большими скидками") 5 =
    str "Супер предложение по турам в..." := by decide
example : GenerateTitleFromText (str "Хотите в отпуск? Звоните нам!") 10 =
    str "Хотите в отпуск" := by decide
example : GenerateTitleFromText (str "https://a.com") 10 = [] := by decide
example : GenerateTitleFromText (str ".a") 10 = str ".a" := by decide

/-- UTF-8 encoding of one rune (how Go lays strings out as bytes). -/
def utf8Char (c : Char) : List Nat :=
  let n := c.toNat
  if n < 0x80 then [n]
  else if n < 0x800 then [0xc0 + n / 64, 0x80 + n % 64]
  else if n < 0x10000 then [0xe0 + n / 4096, 0x80 + n / 64 % 64, 0x80 + n % 64]
  else [0xf0 + n / 262144, 0x80 + n / 4096 % 64, 0x80 + n / 64 % 64, 0x80 + n % 64]

/-- UTF-8 bytes of a rune sequence. -/
def utf8 (s : Str) : List Nat := s.flatMap utf8Char

/-- Truncation to 32 bits. -/
def w32 (x : Nat) : Nat := x % 4294967296

/-- 32-bit left rotation. -/
def rotl (n x : Nat) : Nat := w32 ((x <<< n) + (x >>> (32 - n)))

/-- Big-endian bytes of a 32-bit word. -/
def wordBytes (x : Nat) : List Nat :=
  [x / 16777216 % 256, x / 65536 % 256, x / 256 % 256, x % 256]

/-- SHA-1 padding: `0x80`, zeros to 56 mod 64, then the 64-bit big-endian
bit length. -/
def sha1pad (msg : List Nat) : List Nat :=
  let len := msg.length
  let bits := 8 * len
  msg ++ 0x80 :: List.replicate ((119 - len % 64) % 64) 0 ++
    [bits / 72057594037927936 % 256, bits / 281474976710656 % 256,
     bits / 1099511627776 % 256, bits / 4294967296 % 256,
     bits / 16777216 % 256, bits / 65536 % 256, bits / 256 % 256, bits % 256]

/-- Group a padded byte stream into 64-byte chunks (`acc` holds the current
chunk reversed). -/
def chunks64 : List Nat → List Nat → List (List Nat)
  | [], acc => if acc = [] then [] else [acc.reverse]
  | b :: bs, acc =>
    if acc.length = 63 then (b :: acc).reverse :: chunks64 bs []
    else chunks64 bs (b :: acc)

/-- Big-endian 32-bit words of a chunk. -/
def toWords : List Nat → List Nat
  | b0 :: b1 :: b2 :: b3 :: rest =>
    (b0 * 16777216 + b1 * 65536 + b2 * 256 + b3) :: toWords rest
  | _ => []

/-- Extend 16 schedule words to 80 (`ws` holds all words, newest first). -/
def extendWords : Nat → List Nat → List Nat
  | 0, ws => ws
  | Nat.succ k, ws =>
    extendWords k
      (rotl 1 (ws.getD 2 0 ^^^ ws.getD 7 0 ^^^ ws.getD 13 0 ^^^ ws.getD 15 0) :: ws)

/-- SHA-1 round function and constant for round `i`. -/
def sha1f (i b c d : Nat) : Nat × Nat :=
  if i < 20 then ((b &&& c) ||| ((4294967295 - b) &&& d), 0x5a827999)
  else if i < 40 then (b ^^^ c ^^^ d, 0x6ed9eba1)
  else if i < 60 then ((b &&& c) ||| (b &&& d) ||| (c &&& d), 0x8f1bbcdc)
  else (b ^^^ c ^^^ d, 0xca62c1d6)

/-- One round of the SHA-1 compression function. -/
def sha1round (st : Nat × Nat × Nat × Nat × Nat) (iw : Nat × Nat) :
    Nat × Nat × Nat × Nat × Nat :=
  let a := st.1
  let b := st.2.1
  let c := st.2.2.1
  let d := st.2.2.2.1
  let e := st.2.2.2.2
  let fk := sha1f iw.1 b c d
  (w32 (rotl 5 a + fk.1 + e + fk.2 + iw.2), a, rotl 30 b, c, d)

/-- Process one 64-byte chunk. -/
def sha1chunk (h : Nat × Nat × Nat × Nat × Nat) (chunk : List Nat) :
    Nat × Nat × Nat × Nat × Nat :=
  let ws := (extendWords 64 (toWords chunk).reverse).reverse
  let st := (List.range 80).zip ws |>.foldl sha1round h
  (w32 (h.1 + st.1), w32 (h.2.1 + st.2.1), w32 (h.2.2.1 + st.2.2.1),
   w32 (h.2.2.2.1 + st.2.2.2.1), w32 (h.2.2.2.2 + st.2.2.2.2))

/-- SHA-1 of a byte stream, as the 20 digest bytes (Go `crypto/sha1`). -/
def sha1 (msg : List Nat) : List Nat :=
  let h := (chunks64 (sha1pad msg) []).foldl sha1chunk
    (0x67452301, 0xefcdab89, 0x98badcfe, 0x10325476, 0xc3d2e1f0)
  wordBytes h.1 ++ wordBytes h.2.1 ++ wordBytes h.2.2.1 ++
    wordBytes h.2.2.2.1 ++ wordBytes h.2.2.2.2

/-- Lowercase hex digit (Go `encoding/hex`). -/
def hexDigit (n : Nat) : Char :=
  if n < 10 then Char.ofNat (48 + n) else Char.ofNat (87 + n)

/-- Go `hex.EncodeToString`. -/
def hexEncode (bs : List Nat) : Str := bs.flatMap fun b => [hexDigit (b / 16), hexDigit (b % 16)]

example : hexEncode (sha1 []) = str "da39a3ee5e6b4b0d3255bfef95601890afd80709" := by decide

example : hexEncode (sha1 (utf8 (str "abc"))) =
    str "a9993e364706816aba3e25717850c26c9cd0d89d" := by decide

/-- Model of Go `time.Time`: the absolute instant in nanoseconds since the
Unix epoch plus the zone offset in minutes (the zone only affects
formatting; `UTC()` discards it). -/
structure GoTime where
  instant : Int
  offsetMin : Int
deriving DecidableEq, Repr

/-- The instant of Go's zero `time.Time` (January 1, year 1, 00:00:00 UTC)
in nanoseconds since the Unix epoch. -/
def goZeroInstant : Int := -62135596800000000000

/-- Go's zero `time.Time{}`. -/
def goZeroTime : GoTime := ⟨goZeroInstant, 0⟩

/-- Go `Time.IsZero`: the instant is the absolute zero time. -/
def isZeroTime (t : GoTime) : Bool := t.instant = goZeroInstant

/-- Go `Time.UTC()`. -/
def utcTime (t : GoTime) : GoTime := ⟨t.instant, 0⟩

/-- Decimal digit rune. -/
def digitChar (d : Nat) : Char := Char.ofNat (48 + d)

/-- Two-digit zero-padded decimal (for months, days, clock fields). -/
def pad2 (n : Int) : Str := [digitChar (n.toNat / 10 % 10), digitChar (n.toNat % 10)]

/-- Four-digit zero-padded decimal (for years). -/
def pad4 (n : Int) : Str :=
  [digitChar (n.toNat / 1000 % 10), digitChar (n.toNat / 100 % 10),
   digitChar (n.toNat / 10 % 10), digitChar (n.toNat % 10)]

/-- Civil date of a day count since 1970-01-01 (proleptic Gregorian
calendar, the algorithm used by Go's `absDate`). -/
def civilFromDays (z0 : Int) : Int × Int × Int :=
  let z := z0 + 719468
  let era := z.fdiv 146097
  let doe := z - era * 146097
  let yoe := (doe - doe / 1460 + doe / 36524 - doe / 146096) / 365
  let y := yoe + era * 400
  let doy := doe - (365 * yoe + yoe / 4 - yoe / 100)
  let mp := (5 * doy + 2) / 153
  let d := doy - (153 * mp + 2) / 5 + 1
  let m := mp + (if mp < 10 then 3 else -9)
  (y + (if m ≤ 2 then 1 else 0), m, d)

/-- Day count since 1970-01-01 of a civil date. -/
def daysFromCivil (y m d : Int) : Int :=
  let yy := y - (if m ≤ 2 then 1 else 0)
  let era := yy.fdiv 400
  let yoe := yy - era * 400
  let doy := (153 * (m + (if 2 < m then -3 else 9)) + 2) / 5 + d - 1
  let doe := yoe * 365 + yoe / 4 - yoe / 100 + doy
  era * 146097 + doe - 719468

/-- Go `Time.Format(time.RFC3339)`: fractional seconds are not printed,
and a zero zone offset prints as `Z`. -/
def formatRFC3339 (t : GoTime) : Str :=
  let localSec := t.instant.fdiv 1000000000 + t.offsetMin * 60
  let days := localSec.fdiv 86400
  let secs := localSec - days * 86400
  let ymd := civilFromDays days
  let zone :=
    if t.offsetMin = 0 then ['Z']
    else
      let a := if t.offsetMin < 0 then -t.offsetMin else t.offsetMin
      (if t.offsetMin < 0 then '-' else '+') :: pad2 (a / 60) ++ ':' :: pad2 (a % 60)
  pad4 ymd.1 ++ '-' :: pad2 ymd.2.1 ++ '-' :: pad2 ymd.2.2 ++
    'T' :: pad2 (secs / 3600) ++ ':' :: pad2 (secs / 60 % 60) ++
    ':' :: pad2 (secs % 60) ++ zone

/-- Value of a decimal digit rune. -/
def digitVal (c : Char) : Option Nat :=
  if 48 ≤ c.toNat && c.toNat ≤ 57 then some (c.toNat - 48) else none

/-- Read exactly two decimal digits. -/
def parse2 : Str → Option (Nat × Str)
  | a :: b :: rest =>
    match digitVal a, digitVal b with
    | some x, some y => some (10 * x + y, rest)
    | _, _ => none
  | _ => none

/-- Read exactly four decimal digits. -/
def parse4 : Str → Option (Nat × Str)
  | a :: b :: c :: d :: rest =>
    match digitVal a, digitVal b, digitVal c, digitVal d with
    | some x, some y, some z, some w => some (1000 * x + 100 * y + 10 * z + w, rest)
    | _, _, _, _ => none
  | _ => none

/-- Days in a month of the proleptic Gregorian calendar. -/
def daysInMonth (y m : Int) : Int :=
  if m = 2 then
    if y.emod 4 = 0 && (y.emod 100 ≠ 0 || y.emod 400 = 0) then 29 else 28
  else if m = 4 || m = 6 || m = 9 || m = 11 then 30
  else 31

/-- Optional fractional-second field: `.` followed by at least one digit
(Go `time.Parse` accepts it after the seconds whether or not the layout
carries one, which is why `RFC3339` and `RFC3339Nano` accept the same
strings). The first nine digits carry nanoseconds. -/
def parseFrac (s : Str) : Option (Nat × Str) :=
  match s with
  | '.' :: rest =>
    let ds := rest.takeWhile (fun c => (digitVal c).isSome)
    if ds.length = 0 then none
    else
      let nanos := (ds.take 9).foldl (fun a c => 10 * a + ((digitVal c).getD 0)) 0 *
        10 ^ (9 - min 9 ds.length)
      some (nanos, rest.drop ds.length)
  | _ => some (0, s)

/-- Zone suffix of an RFC3339 timestamp: `Z` or `±HH:MM`, ending the
string; yields the offset in minutes. -/
def parseZone : Str → Option Int
  | ['Z'] => some 0
  | c :: rest =>
    if c = '+' || c = '-' then
      match parse2 rest with
      | some (hh, more) =>
        match more with
        | ':' :: more2 =>
          match parse2 more2 with
          | some (mm, []) =>
            if hh ≤ 23 && mm ≤ 59 then
              some ((if c = '-' then -1 else 1) * (hh * 60 + mm))
            else none
          | _ => none
        | _ => none
      | none => none
    else none
  | _ => none

/-- The date-and-clock part shared by the RFC3339 and legacy layouts:
`YYYY-MM-DD` then `sep` then `HH:MM:SS`, with Go's range validation.
Yields the seconds-since-epoch of the wall reading and the rest. -/
def parseDateClock (sep : Char) (s : Str) : Option (Int × Str) :=
  match parse4 s with
  | none => none
  | some (y, r1) =>
    match r1 with
    | '-' :: r2 =>
      match parse2 r2 with
      | none => none
      | some (mo, r3) =>
        match r3 with
        | '-' :: r4 =>
          match parse2 r4 with
          | none => none
          | some (d, r5) =>
            match r5 with
            | c :: r6 =>
              if c = sep then
                match parse2 r6 with
                | none => none
                | some (hh, r7) =>
                  match r7 with
                  | ':' :: r8 =>
                    match parse2 r8 with
                    | none => none
                    | some (mi, r9) =>
                      match r9 with
                      | ':' :: r10 =>
                        match parse2 r10 with
                        | none => none
                        | some (ss, r11) =>
                          if 1 ≤ mo && mo ≤ 12 && 1 ≤ (d : Int) &&
                              (d : Int) ≤ daysInMonth y mo &&
                              hh ≤ 23 && mi ≤ 59 && ss ≤ 59 then
                            some (daysFromCivil y mo d * 86400 +
                              (hh : Int) * 3600 + (mi : Int) * 60 + ss, r11)
                          else none
                      | _ => none
                  | _ => none
              else none
            | _ => none
        | _ => none
    | _ => none

/-- Go `time.Parse` with layouts `time.RFC3339Nano` / `time.RFC3339`
(both accept the same strings, so the worker's first two attempts are one
parse here). -/
def parseRFC3339 (s : Str) : Option GoTime :=
  match parseDateClock 'T' s with
  | none => none
  | some (wall, r1) =>
    match parseFrac r1 with
    | none => none
    | some (nanos, r2) =>
      match parseZone r2 with
      | none => none
      | some off => some ⟨(wall - off * 60) * 1000000000 + nanos, off⟩

/-- Go `time.Parse` with the legacy layout `2006-01-02 15:04:05` (no zone:
the result is in UTC). -/
def parseLegacy (s : Str) : Option GoTime :=
  match parseDateClock ' ' s with
  | none => none
  | some (wall, r1) =>
    match parseFrac r1 with
    | none => none
    | some (nanos, r2) =>
      match r2 with
      | [] => some ⟨wall * 1000000000 + nanos, 0⟩
      | _ => none

/-- Model of the worker's `parseTimestamp`: trim, try the formats in
order, and fall back to the zero time. -/
def parseTimestamp (raw : Str) : GoTime :=
  let r := trimSpace raw
  if r = [] then goZeroTime
  else
    match parseRFC3339 r with
    | some t => t
    | none =>
      match parseLegacy r with
      | some t => t
      | none => goZeroTime

/-- Model of Go `BuildDocumentID`: lowercase hex SHA-1 of
`title | text | RFC3339-UTC-timestamp`. -/
def BuildDocumentID (title text : Str) (ts : GoTime) : Str :=
  hexEncode (sha1 (utf8 (title ++ '|' :: text ++ '|' :: formatRFC3339 (utcTime ts))))

example : formatRFC3339 ⟨1706933106000000000, 0⟩ = str "2024-02-03T04:05:06Z" := by decide

example : parseTimestamp (str "2024-02-03T04:05:06Z") = ⟨1706933106000000000, 0⟩ := by decide

example : parseTimestamp (str "2024-02-03 04:05:06") = ⟨1706933106000000000, 0⟩ := by decide

example : parseTimestamp (str "invalid") = goZeroTime := by decide

example : parseTimestamp (str "") = goZeroTime := by decide

example : isZeroTime (parseTimestamp (str "0001-01-01T00:00:00Z")) = true := by decide

example : BuildDocumentID (str "title") (str "text") ⟨1706933106000000000, 0⟩ =
    str "399d7958ca47e0dcc8bce0ff6c0be8071819ed5f" := by decide

example : formatRFC3339 ⟨0, 0⟩ = str "1970-01-01T00:00:00Z" := by decide

example : formatRFC3339 ⟨1000000000, 0⟩ = str "1970-01-01T00:00:01Z" := by decide

/-- The claim's reading of title synthesis: the prefix before the first
terminator is used wherever a terminator occurs, including at position 0. -/
def titleSpecClaim (text : Str) (maxWords : Int) : Str :=
  let noURLs := RemoveURLs text
  let pre := noURLs.takeWhile (fun c => !termChar c)
  let words := goFields (trimSpace pre)
  if words = [] then []
  else if 0 < maxWords ∧ maxWords < (words.length : Int) then
    joinSp (words.take maxWords.toNat) ++ str "..."
  else joinSp words

/-- The amended reading: the first-sentence prefix is used only when the
first terminator occurs at a positive index; a leading terminator (or no
terminator) leaves the whole URL-stripped string. -/
def titleSpecAmended (text : Str) (maxWords : Int) : Str :=
  let noURLs := RemoveURLs text
  let pre := noURLs.takeWhile (fun c => !termChar c)
  let firstSentence := if pre ≠ [] ∧ pre ≠ noURLs then trimSpace pre else noURLs
  let words := goFields firstSentence
  if words = [] then []
  else if 0 < maxWords ∧ maxWords < (words.length : Int) then
    joinSp (words.take maxWords.toNat) ++ str "..."
  else joinSp words

/-- The dedupe cache (`internal/dedupe`): a map from key to last-seen
instant (modelled as an association list with distinct keys) plus the
append-ordered history, with the normalized capacity and ttl.  Instants
and durations are nanoseconds. -/
structure Cache where
  items : List (Str × Int)
  order : List (Str × Int)
  capacity : Int
  ttl : Int
deriving DecidableEq, Repr

/-- Association-list lookup (Go map read). -/
def lookupA (k : Str) : List (Str × Int) → Option Int
  | [] => none
  | p :: rest => if p.1 = k then some p.2 else lookupA k rest

/-- Association-list insert-or-overwrite (Go map write). -/
def insertA (k : Str) (v : Int) (l : List (Str × Int)) : List (Str × Int) :=
  (k, v) :: l.filter (fun p => decide (p.1 ≠ k))

/-- Association-list delete (Go map delete). -/
def eraseA (k : Str) (l : List (Str × Int)) : List (Str × Int) :=
  l.filter (fun p => decide (p.1 ≠ k))

/-- Model of `dedupe.NewCache`, with the source's defaults. -/
def NewCache (capacity ttl : Int) : Cache :=
  { items := [], order := [],
    capacity := if capacity ≤ 0 then 1 else capacity,
    ttl := if ttl ≤ 0 then 3600000000000 else ttl }

/-- Model of `Cache.IsSeen` at instant `now` (no mutation). -/
def IsSeen (c : Cache) (now : Int) (key : Str) : Bool :=
  match lookupA key c.items with
  | some ts => decide (now - ts ≤ c.ttl)
  | none => false

/-- The compaction loop of `Cache.compact`: pop the oldest history entry
while the map is over capacity or the oldest entry is older than the
cutoff; the map entry is deleted only when its stored instant matches the
history entry. -/
def compactLoop (cutoff capacity : Int) :
    List (Str × Int) → List (Str × Int) → List (Str × Int) × List (Str × Int)
  | items, [] => (items, [])
  | items, oldest :: rest =>
    if decide ((items.length : Int) > capacity) || decide (oldest.2 < cutoff) then
      let items2 :=
        match lookupA oldest.1 items with
        | some ts => if ts = oldest.2 then eraseA oldest.1 items else items
        | none => items
      compactLoop cutoff capacity items2 rest
    else (items, oldest :: rest)

/-- Model of `Cache.MarkSeen` at instant `now`: overwrite the map entry,
append to the history, compact. -/
def MarkSeen (c : Cache) (now : Int) (key : Str) : Cache :=
  let items := insertA key now c.items
  let order := c.order ++ [(key, now)]
  let res := compactLoop (now - c.ttl) c.capacity items order
  { c with items := res.1, order := res.2 }

example :
    IsSeen (MarkSeen (NewCache 10 60000000000) 0 (str "alpha")) 1 (str "alpha") = true := by
  decide

example :
    let c := MarkSeen (MarkSeen (NewCache 1 60000000000) 0 (str "first")) 1 (str "second")
    IsSeen c 1 (str "first") = false ∧ IsSeen c 1 (str "second") = true := by decide

example :
    IsSeen (MarkSeen (NewCache 10 100) 0 (str "beta")) 101 (str "beta") = false := by decide

/-- The worker's decoded wire shape (`rawNews`), after JSON decoding. -/
structure RawNews where
  title : Str
  text : Str
  timestamp : Str
  source : Str
deriving DecidableEq, Repr

/-- The canonical indexed document (`models.NewsDocument`). -/
structure NewsDocument where
  id : Str
  title : Str
  text : Str
  timestamp : GoTime
  keywords : List Str
  source : Str
  urls : List Str
deriving DecidableEq, Repr

/-- The worker configuration fields used by `processMessage`. -/
structure WorkerCfg where
  keywordLimit : Int
  keywordMinLength : Int
deriving DecidableEq, Repr

/-- The document `processMessage` builds from a decoded payload at instant
`now` (nanoseconds; `time.Now().UTC()` is the fallback timestamp), with
`uuid` the random identifier the `doc.ID == ""` branch would use. -/
def buildDoc (cfg : WorkerCfg) (now : Int) (uuid : Str) (payload : RawNews) :
    NewsDocument :=
  let title0 := trimSpace payload.title
  let text := trimSpace payload.text
  let urls := ExtractURLs text
  let title :=
    if title0 = [] ∧ text ≠ [] then GenerateTitleFromText text 10 else title0
  let ts0 := parseTimestamp payload.timestamp
  let ts := if isZeroTime ts0 then (⟨now, 0⟩ : GoTime) else ts0
  let cleanedText := CleanText text
  let keywords := ExtractKeywords (title ++ ' ' :: cleanedText)
    cfg.keywordLimit cfg.keywordMinLength
  let source0 := trimSpace payload.source
  let source := if source0 = [] then str "unknown" else source0
  let id0 := BuildDocumentID title cleanedText ts
  { id := if id0 = [] then uuid else id0,
    title := title, text := text, timestamp := ts,
    keywords := keywords, source := source, urls := urls }

/-- Result of one `processMessage` call: the error (if any), the documents
passed to `IndexNews` (one per call made), and the cache afterwards. -/
structure ProcResult where
  err : Option Str
  indexCalls : List NewsDocument
  cache : Cache
deriving DecidableEq, Repr

/-- Model of the worker's `processMessage`.  The message is the decoded
payload (`none` models a JSON decode failure), `indexOk` says whether the
indexer accepts the write, and all `time.Now()` readings of the call are
the single instant `now`. -/
def processMessage (cfg : WorkerCfg) (cache : Cache) (now : Int) (indexOk : Bool)
    (uuid : Str) (msg : Option RawNews) : ProcResult :=
  match msg with
  | none => { err := some (str "json"), indexCalls := [], cache := cache }
  | some payload =>
    if trimSpace payload.title = [] ∧ trimSpace payload.text = [] then
      { err := some (str "empty payload"), indexCalls := [], cache := cache }
    else
      let doc := buildDoc cfg now uuid payload
      if IsSeen cache now doc.id then
        { err := none, indexCalls := [], cache := cache }
      else if indexOk then
        { err := none, indexCalls := [doc], cache := MarkSeen cache now doc.id }
      else
        { err := some (str "index"), indexCalls := [doc], cache := cache }

/-- JSON values, for the search request body built by `SearchNews`. -/
inductive JVal where
  | jstr (s : Str)
  | jnum (n : Int)
  | jbool (b : Bool)
  | jarr (xs : List JVal)
  | jobj (fields : List (Str × JVal))

/-- `elasticsearch.SearchParams`. -/
structure SearchParams where
  Query : Str
  Keywords : List Str
  Source : Str
  From : Int
  Size : Int
  SortSpec : Str
  Start : Option GoTime
  End : Option GoTime

/-- Size normalization at the head of `SearchNews`: non-positive defaults
to 20, then values above 200 clamp to 200. -/
def sizeNorm (sz : Int) : Int :=
  let s1 := if sz ≤ 0 then 20 else sz
  if s1 > 200 then 200 else s1

/-- From normalization at the head of `SearchNews`. -/
def fromNorm (f : Int) : Int := if f < 0 then 0 else f

/-- The `multi_match` must clause over `title^2, text`. -/
def multiMatchClause (q : Str) : JVal :=
  .jobj [(str "multi_match", .jobj
    [(str "query", .jstr q),
     (str "fields", .jarr [.jstr (str "title^2"), .jstr (str "text")])])]

/-- The `must` clause group of `SearchNews`. -/
def mustClauses (p : SearchParams) : List JVal :=
  if p.Query ≠ [] then [multiMatchClause p.Query] else []

/-- The `range` body on `timestamp`: `gte`/`lte` only for present bounds,
each RFC3339-formatted in UTC. -/
def rangeFields (p : SearchParams) : List (Str × JVal) :=
  (match p.Start with
   | some t => [(str "gte", .jstr (formatRFC3339 (utcTime t)))]
   | none => []) ++
  (match p.End with
   | some t => [(str "lte", .jstr (formatRFC3339 (utcTime t)))]
   | none => [])

/-- The `terms` filter on `keywords`. -/
def termsClause (p : SearchParams) : JVal :=
  .jobj [(str "terms", .jobj [(str "keywords", .jarr (p.Keywords.map .jstr))])]

/-- The `term` filter on `source`. -/
def termClause (p : SearchParams) : JVal :=
  .jobj [(str "term", .jobj [(str "source", .jstr p.Source)])]

/-- The `range` filter on `timestamp`. -/
def rangeClause (p : SearchParams) : JVal :=
  .jobj [(str "range", .jobj [(str "timestamp", .jobj (rangeFields p))])]

/-- The `filter` clause group of `SearchNews`. -/
def filterClauses (p : SearchParams) : List JVal :=
  (if p.Keywords ≠ [] then [termsClause p] else []) ++
  (if p.Source ≠ [] then [termClause p] else []) ++
  (if p.Start.isSome || p.End.isSome then [rangeClause p] else [])

/-- The `match_all` clause. -/
def matchAllClause : JVal := .jobj [(str "match_all", .jobj [])]

/-- The `bool` query object: `must` when nonempty, `filter` when nonempty,
`match_all` under `must` when both groups are empty. -/
def boolObj (p : SearchParams) : List (Str × JVal) :=
  (if (mustClauses p).isEmpty then [] else [(str "must", .jarr (mustClauses p))]) ++
  (if (filterClauses p).isEmpty then [] else [(str "filter", .jarr (filterClauses p))]) ++
  (if (mustClauses p).isEmpty && (filterClauses p).isEmpty then
    [(str "must", .jarr [matchAllClause])]
   else [])

/-- The sort field and direction: `Sort` split on `:`, empty `Sort`
defaulting to `timestamp:desc`, empty field to `timestamp`, missing or
empty direction to `desc`. -/
def sortPair (p : SearchParams) : Str × Str :=
  let sortField := if p.SortSpec = [] then str "timestamp:desc" else p.SortSpec
  let parts := List.splitOn ':' sortField
  let field0 := parts.headD []
  let field := if field0 = [] then str "timestamp" else field0
  let order :=
    if 1 < parts.length ∧ parts.getD 1 [] ≠ [] then parts.getD 1 []
    else str "desc"
  (field, order)

/-- The single sort descriptor emitted by `SearchNews`. -/
def sortDescriptor (p : SearchParams) : JVal :=
  .jobj [((sortPair p).1, .jobj [(str "order", .jstr (sortPair p).2)])]

/-- The complete request body built by `SearchNews` (`json.Marshal`
serializes Go maps with sorted keys; the claims are about which clauses the
body contains, so the object field order here follows the source's
construction order), as the field list. -/
def bodyFields (p : SearchParams) : List (Str × JVal) :=
  [(str "from", .jnum (fromNorm p.From)),
   (str "size", .jnum (sizeNorm p.Size)),
   (str "track_total_hits", .jbool true),
   (str "query", .jobj [(str "bool", .jobj (boolObj p))]),
   (str "sort", .jarr [sortDescriptor p])]

/-- The complete request body as a JSON value. -/
def SearchNewsBody (p : SearchParams) : JVal := .jobj (bodyFields p)

/-- `elasticsearch.SearchResult`. -/
structure SearchResult where
  Total : Int
  Items : List NewsDocument

/-- Go `strconv.Atoi`: optional sign, then at least one digit, nothing
else (machine overflow is not modelled; no claim depends on it). -/
def Atoi (s : Str) : Option Int :=
  match s with
  | [] => none
  | c :: rest =>
    let neg := c = '-'
    let ds := if c = '-' || c = '+' then rest else s
    if ds = [] || ds.any (fun d => (digitVal d).isNone) then none
    else
      let v : Int := ds.foldl (fun a d => 10 * a + ((digitVal d).getD 0 : Int)) 0
      some (if neg then -v else v)

/-- The API's `clampInt`: fallback on empty, unparseable or non-positive
input; clamp to `mx` above. -/
def clampInt (raw : Str) (fallback mx : Int) : Int :=
  if raw = [] then fallback
  else
    match Atoi raw with
    | none => fallback
    | some value =>
      if value ≤ 0 then fallback
      else if value > mx then mx
      else value

/-- The API's `parseTime`: trim; an empty or non-RFC3339 value is `none`. -/
def parseTime (raw : Str) : Option GoTime :=
  let r := trimSpace raw
  if r = [] then none
  else
    match parseRFC3339 r with
    | some t => some t
    | none => none

/-- The API's `parseCSV`: split on commas, trim parts, drop empties. -/
def parseCSV (raw : Str) : List Str :=
  if raw = [] then []
  else ((List.splitOn ',' raw).map trimSpace).filter (fun t => decide (t ≠ []))

/-- The API configuration fields used by `handleSearch`. -/
structure APICfg where
  DefaultPage : Int
  MaxPage : Int

/-- The `SearchParams` that `handleSearch` builds from the raw query
parameters (each the raw value of `r.URL.Query().Get`, empty when
absent). -/
def searchParamsOf (cfg : APICfg)
    (q keywords source fromRaw sizeRaw sortRaw startRaw endRaw : Str) :
    SearchParams :=
  { Query := trimSpace q,
    Keywords := parseCSV keywords,
    Source := trimSpace source,
    From := clampInt fromRaw 0 10000,
    Size := clampInt sizeRaw cfg.DefaultPage cfg.MaxPage,
    SortSpec := trimSpace sortRaw,
    Start := parseTime startRaw,
    End := parseTime endRaw }

/-- The HTTP status `handleSearch` answers with, given the backend's
response to the compiled parameters: 200 on success, 500 on backend
failure, never any other status. -/
def handleSearchStatus (backendResult : Except Str SearchResult) : Int :=
  match backendResult with
  | .ok _ => 200
  | .error _ => 500

theorem terms_ne_term (p q : SearchParams) : termsClause p ≠ termClause q := by
  intro h
  simp only [termsClause, termClause, JVal.jobj.injEq, List.cons.injEq,
    Prod.mk.injEq] at h
  exact absurd h.1.1 (by decide)

theorem terms_ne_range (p q : SearchParams) : termsClause p ≠ rangeClause q := by
  intro h
  simp only [termsClause, rangeClause, JVal.jobj.injEq, List.cons.injEq,
    Prod.mk.injEq] at h
  exact absurd h.1.1 (by decide)

theorem term_ne_range (p q : SearchParams) : termClause p ≠ rangeClause q := by
  intro h
  simp only [termClause, rangeClause, JVal.jobj.injEq, List.cons.injEq,
    Prod.mk.injEq] at h
  exact absurd h.1.1 (by decide)

theorem multiMatch_ne_matchAll (q : Str) : multiMatchClause q ≠ matchAllClause := by
  intro h
  simp only [multiMatchClause, matchAllClause, JVal.jobj.injEq, List.cons.injEq,
    Prod.mk.injEq] at h
  exact absurd h.1.1 (by decide)

theorem mem_ite_singleton {α : Type} {c : Prop} [Decidable c] {x y : α} :
    (x ∈ if c then [y] else []) ↔ (c ∧ x = y) := by
  by_cases h : c <;> simp [h]

theorem mem_filterClauses {p : SearchParams} {x : JVal} :
    x ∈ filterClauses p ↔
      (p.Keywords ≠ [] ∧ x = termsClause p) ∨
      (p.Source ≠ [] ∧ x = termClause p) ∨
      ((p.Start.isSome || p.End.isSome) = true ∧ x = rangeClause p) := by
  simp only [filterClauses, List.mem_append, mem_ite_singleton, or_assoc]

/-- C5.  Query compiler postcondition: for every `SearchParams`, the body
built by `SearchNews` clamps `Size` into `[1, 200]` (non-positive
defaulting to 20) and negative `From` to 0; carries the `multi_match` must
clause over `title^2, text` exactly when `Query` is non-empty; carries the
keywords `terms` filter, the source `term` filter, and the `timestamp`
range clause (with `gte`/`lte` exactly for the present bounds) exactly when
the corresponding parameter is non-empty; collapses to a single `match_all`
clause exactly when both clause groups are empty; always sets
`track_total_hits = true`; and emits exactly one sort descriptor, with
field `timestamp` and direction `desc` when `Sort` is empty. -/
theorem C5_search_query_compiler (p : SearchParams) :
    (1 ≤ sizeNorm p.Size ∧ sizeNorm p.Size ≤ 200) ∧
    (p.Size ≤ 0 → sizeNorm p.Size = 20) ∧
    (200 < p.Size → sizeNorm p.Size = 200) ∧
    (0 < p.Size ∧ p.Size ≤ 200 → sizeNorm p.Size = p.Size) ∧
    (0 ≤ fromNorm p.From ∧ (p.From < 0 → fromNorm p.From = 0) ∧
      (0 ≤ p.From → fromNorm p.From = p.From)) ∧
    (p.Query ≠ [] ↔ mustClauses p = [multiMatchClause p.Query]) ∧
    (p.Query = [] ↔ mustClauses p = []) ∧
    (p.Keywords ≠ [] ↔ termsClause p ∈ filterClauses p) ∧
    (p.Source ≠ [] ↔ termClause p ∈ filterClauses p) ∧
    ((p.Start.isSome ∨ p.End.isSome) ↔ rangeClause p ∈ filterClauses p) ∧
    ((∃ v, (str "gte", v) ∈ rangeFields p) ↔ p.Start.isSome = true) ∧
    ((∃ v, (str "lte", v) ∈ rangeFields p) ↔ p.End.isSome = true) ∧
    ((mustClauses p = [] ∧ filterClauses p = []) ↔
      boolObj p = [(str "must", JVal.jarr [matchAllClause])]) ∧
    ((str "track_total_hits", JVal.jbool true) ∈ bodyFields p) ∧
    ((str "sort", JVal.jarr [sortDescriptor p]) ∈ bodyFields p) ∧
    (p.SortSpec = [] → sortPair p = (str "timestamp", str "desc")) := by
  refine ⟨?_, ?_, ?_, ?_, ?_, ?_, ?_, ?_, ?_, ?_, ?_, ?_, ?_, ?_, ?_, ?_⟩
  · simp only [sizeNorm]; split_ifs <;> omega
  · intro h; simp only [sizeNorm]; split_ifs <;> omega
  · intro h; simp only [sizeNorm]; split_ifs <;> omega
  · rintro ⟨h1, h2⟩; simp only [sizeNorm]; split_ifs <;> omega
  · refine ⟨?_, ?_, ?_⟩ <;> (intros; simp only [fromNorm]) <;> split_ifs <;> omega
  · constructor
    · intro h; simp [mustClauses, h]
    · intro h hq
      simp [mustClauses, hq] at h
  · constructor
    · intro h; simp [mustClauses, h]
    · intro h
      by_cases hq : p.Query = []
      · exact hq
      · simp [mustClauses, hq] at h
  · constructor
    · intro h
      exact mem_filterClauses.mpr (Or.inl ⟨h, rfl⟩)
    · intro h
      rcases mem_filterClauses.mp h with ⟨h1, -⟩ | ⟨-, h2⟩ | ⟨-, h2⟩
      · exact h1
      · exact absurd h2 (terms_ne_term p p)
      · exact absurd h2 (terms_ne_range p p)
  · constructor
    · intro h
      exact mem_filterClauses.mpr (Or.inr (Or.inl ⟨h, rfl⟩))
    · intro h
      rcases mem_filterClauses.mp h with ⟨-, h2⟩ | ⟨h1, -⟩ | ⟨-, h2⟩
      · exact absurd h2.symm (terms_ne_term p p)
      · exact h1
      · exact absurd h2 (term_ne_range p p)
  · constructor
    · intro h
      have hb : (p.Start.isSome || p.End.isSome) = true := by
        rcases h with h | h <;> simp [h]
      exact mem_filterClauses.mpr (Or.inr (Or.inr ⟨hb, rfl⟩))
    · intro h
      rcases mem_filterClauses.mp h with ⟨-, h2⟩ | ⟨-, h2⟩ | ⟨h1, -⟩
      · exact absurd h2.symm (terms_ne_range p p)
      · exact absurd h2.symm (term_ne_range p p)
      · simpa using h1
  · constructor
    · rintro ⟨v, hv⟩
      simp only [rangeFields, List.mem_append] at hv
      rcases hv with h | h
      · cases hst : p.Start with
        | none => rw [hst] at h; simp at h
        | some t => rfl
      · cases hen : p.End with
        | none => rw [hen] at h; simp at h
        | some t =>
          rw [hen] at h
          simp only [List.mem_singleton, Prod.mk.injEq] at h
          exact absurd h.1 (by decide)
    · intro h
      cases hst : p.Start with
      | none => rw [hst] at h; simp at h
      | some t =>
        exact ⟨JVal.jstr (formatRFC3339 (utcTime t)), by simp [rangeFields, hst]⟩
  · constructor
    · rintro ⟨v, hv⟩
      simp only [rangeFields, List.mem_append] at hv
      rcases hv with h | h
      · cases hst : p.Start with
        | none => rw [hst] at h; simp at h
        | some t =>
          rw [hst] at h
          simp only [List.mem_singleton, Prod.mk.injEq] at h
          exact absurd h.1 (by decide)
      · cases hen : p.End with
        | none => rw [hen] at h; simp at h
        | some t => rfl
    · intro h
      cases hen : p.End with
      | none => rw [hen] at h; simp at h
      | some t =>
        exact ⟨JVal.jstr (formatRFC3339 (utcTime t)), by simp [rangeFields, hen]⟩
  · constructor
    · rintro ⟨h1, h2⟩
      simp [boolObj, h1, h2]
    · intro h
      cases hml : mustClauses p with
      | nil =>
        cases hfl : filterClauses p with
        | nil => exact ⟨rfl, rfl⟩
        | cons b fs =>
          exfalso
          simp only [boolObj] at h
          rw [hml, hfl] at h
          simp only [List.isEmpty_nil, List.isEmpty_cons, if_true,
            Bool.true_and, Bool.false_and, if_false, Bool.false_eq_true,
            List.nil_append, List.append_nil, List.cons.injEq, Prod.mk.injEq] at h
          exact absurd h.1.1 (by decide)
      | cons a ms =>
        exfalso
        cases hfl : filterClauses p with
        | nil =>
          simp only [boolObj] at h
          rw [hml, hfl] at h
          simp only [List.isEmpty_nil, List.isEmpty_cons, if_true,
            Bool.true_and, Bool.false_and, if_false, Bool.false_eq_true,
            List.nil_append, List.append_nil, List.cons.injEq, Prod.mk.injEq,
            JVal.jarr.injEq] at h
          have harr := h.1.2
          by_cases hq : p.Query = []
          · rw [show mustClauses p = [] from by simp [mustClauses, hq]] at hml
            cases hml
          · rw [show mustClauses p = [multiMatchClause p.Query] from by
              simp [mustClauses, hq]] at hml
            have ha : a = multiMatchClause p.Query := (List.cons.injEq .. |>.mp hml.symm).1
            rw [ha] at harr
            exact multiMatch_ne_matchAll p.Query harr.1
        | cons b fs =>
          simp only [boolObj] at h
          rw [hml, hfl] at h
          simp only [List.isEmpty_cons, Bool.false_and, if_false,
            Bool.false_eq_true, List.append_nil] at h
          have hlen := congrArg List.length h
          simp at hlen
  · exact List.mem_cons_of_mem _ (List.mem_cons_of_mem _ (List.mem_cons_self _ _))
  · exact List.mem_cons_of_mem _ (List.mem_cons_of_mem _ (List.mem_cons_of_mem _
      (List.mem_cons_of_mem _ (List.mem_cons_self _ _))))
  · intro h
    simp only [sortPair, h, if_pos]
    decide

theorem C5_witness :
    sizeNorm (-5) = 20 ∧ fromNorm (-3) = 0 ∧
    sortPair ⟨[], [], [], -3, -5, [], none, none⟩ = (str "timestamp", str "desc") := by
  have h := C5_search_query_compiler ⟨[], [], [], -3, -5, [], none, none⟩
  exact ⟨h.2.1 (by decide), h.2.2.2.2.1.2.1 (by decide),
    h.2.2.2.2.2.2.2.2.2.2.2.2.2.2.2 rfl⟩

theorem Atoi_nil : Atoi [] = none := rfl

theorem clampInt_bounds (raw : Str) (fb mx : Int) (h1 : 0 ≤ fb) (h2 : fb ≤ mx) :
    fb ≤ clampInt raw fb mx ∨ (0 < clampInt raw fb mx ∧ clampInt raw fb mx ≤ mx) := by
  unfold clampInt
  split_ifs with he
  · exact Or.inl le_rfl
  · cases hA : Atoi raw with
    | none => exact Or.inl le_rfl
    | some v => dsimp only; split_ifs <;> omega

theorem clampInt_le (raw : Str) (fb mx : Int) (h2 : fb ≤ mx) :
    clampInt raw fb mx ≤ mx := by
  unfold clampInt
  split_ifs with he
  · exact h2
  · cases hA : Atoi raw with
    | none => exact h2
    | some v => dsimp only; split_ifs <;> omega

theorem clampInt_ge (raw : Str) (fb mx : Int) (h1 : 0 ≤ fb) (h2 : fb ≤ mx) :
    min fb 1 ≤ clampInt raw fb mx := by
  unfold clampInt
  split_ifs with he
  · omega
  · cases hA : Atoi raw with
    | none => dsimp only; omega
    | some v => dsimp only; split_ifs <;> omega

theorem clampInt_empty (fb mx : Int) : clampInt [] fb mx = fb := rfl

theorem clampInt_noparse {raw : Str} (fb mx : Int) (h : Atoi raw = none) :
    clampInt raw fb mx = fb := by
  unfold clampInt
  split_ifs with he
  · rfl
  · rw [h]

theorem clampInt_nonpos {raw : Str} {v : Int} (fb mx : Int)
    (h : Atoi raw = some v) (hv : v ≤ 0) : clampInt raw fb mx = fb := by
  unfold clampInt
  split_ifs with he
  · rfl
  · rw [h]; simp only [if_pos hv]

theorem clampInt_over {raw : Str} {v : Int} (fb mx : Int)
    (h : Atoi raw = some v) (hv : mx < v) (hmx : 0 ≤ mx) :
    clampInt raw fb mx = mx := by
  unfold clampInt
  split_ifs with he
  · rw [he] at h; cases (Atoi_nil ▸ h)
  · rw [h]
    have : ¬(v ≤ 0) := by omega
    simp only [if_neg this, if_pos hv]

/-- C10.  `GET /news` parameter parsing never produces a client error: a
missing, non-numeric or non-positive `from` falls back to 0 and `size` to
the configured default (values above the maximum clamp to it), an invalid
`start`/`end` is silently dropped, and the handler's status is 200 on
backend success and 500 on backend failure — never a 4xx. -/
theorem C10_api_param_parsing (cfg : APICfg)
    (q kw src fromRaw sizeRaw sortRaw startRaw endRaw : Str)
    (hdp : 0 < cfg.DefaultPage) (hmp : cfg.DefaultPage ≤ cfg.MaxPage) :
    (0 ≤ (searchParamsOf cfg q kw src fromRaw sizeRaw sortRaw startRaw endRaw).From ∧
      (searchParamsOf cfg q kw src fromRaw sizeRaw sortRaw startRaw endRaw).From ≤ 10000) ∧
    (fromRaw = [] ∨ Atoi fromRaw = none ∨ (∃ v, Atoi fromRaw = some v ∧ v ≤ 0) →
      (searchParamsOf cfg q kw src fromRaw sizeRaw sortRaw startRaw endRaw).From = 0) ∧
    (∀ v, Atoi fromRaw = some v → 10000 < v →
      (searchParamsOf cfg q kw src fromRaw sizeRaw sortRaw startRaw endRaw).From = 10000) ∧
    (1 ≤ (searchParamsOf cfg q kw src fromRaw sizeRaw sortRaw startRaw endRaw).Size ∧
      (searchParamsOf cfg q kw src fromRaw sizeRaw sortRaw startRaw endRaw).Size ≤ cfg.MaxPage) ∧
    (sizeRaw = [] ∨ Atoi sizeRaw = none ∨ (∃ v, Atoi sizeRaw = some v ∧ v ≤ 0) →
      (searchParamsOf cfg q kw src fromRaw sizeRaw sortRaw startRaw endRaw).Size =
        cfg.DefaultPage) ∧
    (∀ v, Atoi sizeRaw = some v → cfg.MaxPage < v →
      (searchParamsOf cfg q kw src fromRaw sizeRaw sortRaw startRaw endRaw).Size =
        cfg.MaxPage) ∧
    (parseRFC3339 (trimSpace startRaw) = none →
      (searchParamsOf cfg q kw src fromRaw sizeRaw sortRaw startRaw endRaw).Start = none) ∧
    (parseRFC3339 (trimSpace endRaw) = none →
      (searchParamsOf cfg q kw src fromRaw sizeRaw sortRaw startRaw endRaw).End = none) ∧
    (∀ r : Except Str SearchResult,
      handleSearchStatus r = 200 ∨ handleSearchStatus r = 500) ∧
    (∀ r : Except Str SearchResult,
      (handleSearchStatus r = 200 ↔ ∃ x, r = Except.ok x)) := by
  have hFrom : (searchParamsOf cfg q kw src fromRaw sizeRaw sortRaw startRaw endRaw).From =
      clampInt fromRaw 0 10000 := rfl
  have hSize : (searchParamsOf cfg q kw src fromRaw sizeRaw sortRaw startRaw endRaw).Size =
      clampInt sizeRaw cfg.DefaultPage cfg.MaxPage := rfl
  refine ⟨?_, ?_, ?_, ?_, ?_, ?_, ?_, ?_, ?_, ?_⟩
  · rw [hFrom]
    have hb := clampInt_bounds fromRaw 0 10000 (by omega) (by omega)
    have hl := clampInt_le fromRaw 0 10000 (by omega)
    rcases hb with hb | hb <;> omega
  · intro h
    rw [hFrom]
    rcases h with h | h | ⟨v, hv, hvle⟩
    · rw [h]; exact clampInt_empty 0 10000
    · exact clampInt_noparse 0 10000 h
    · exact clampInt_nonpos 0 10000 hv hvle
  · intro v hv hgt
    rw [hFrom]
    exact clampInt_over 0 10000 hv hgt (by omega)
  · rw [hSize]
    have hb := clampInt_ge sizeRaw cfg.DefaultPage cfg.MaxPage (by omega) hmp
    have hl := clampInt_le sizeRaw cfg.DefaultPage cfg.MaxPage hmp
    omega
  · intro h
    rw [hSize]
    rcases h with h | h | ⟨v, hv, hvle⟩
    · rw [h]; exact clampInt_empty _ _
    · exact clampInt_noparse _ _ h
    · exact clampInt_nonpos _ _ hv hvle
  · intro v hv hgt
    rw [hSize]
    exact clampInt_over _ _ hv hgt (by omega)
  · intro h
    show parseTime startRaw = none
    unfold parseTime
    dsimp only
    split_ifs with he
    · rfl
    · rw [h]
  · intro h
    show parseTime endRaw = none
    unfold parseTime
    dsimp only
    split_ifs with he
    · rfl
    · rw [h]
  · intro r
    cases r with
    | ok x => exact Or.inl rfl
    | error e => exact Or.inr rfl
  · intro r
    cases r with
    | ok x => simp [handleSearchStatus]
    | error e => simp [handleSearchStatus]

theorem C10_witness :
    (0 ≤ (searchParamsOf ⟨20, 100⟩ [] [] [] (str "abc") (str "-7") [] (str "oops") []).From ∧
      (searchParamsOf ⟨20, 100⟩ [] [] [] (str "abc") (str "-7") [] (str "oops") []).From ≤
        10000) ∧
    (searchParamsOf ⟨20, 100⟩ [] [] [] (str "abc") (str "-7") [] (str "oops") []).From = 0 ∧
    (searchParamsOf ⟨20, 100⟩ [] [] [] (str "abc") (str "-7") [] (str "oops") []).Size = 20 ∧
    (searchParamsOf ⟨20, 100⟩ [] [] [] (str "abc") (str "-7") [] (str "oops") []).Start =
      none ∧
    handleSearchStatus (Except.error (str "boom")) = 500 := by
  have h := C10_api_param_parsing ⟨20, 100⟩ [] [] [] (str "abc") (str "-7") [] (str "oops") []
    (by decide) (by decide)
  refine ⟨h.1, h.2.1 (Or.inr (Or.inl (by decide))), ?_, h.2.2.2.2.2.2.1 (by decide), ?_⟩
  · exact h.2.2.2.2.1 (Or.inr (Or.inr ⟨-7, by decide, by decide⟩))
  · rcases h.2.2.2.2.2.2.2.2.1 (Except.error (str "boom")) with h200 | h500
    · exact absurd ((h.2.2.2.2.2.2.2.2.2 (Except.error (str "boom"))).mp h200)
        (by rintro ⟨x, hx⟩; cases hx)
    · exact h500

theorem wordBytes_lt {b x : Nat} (h : b ∈ wordBytes x) : b < 256 := by
  simp only [wordBytes, List.mem_cons, List.not_mem_nil, or_false] at h
  rcases h with h | h | h | h <;> subst h <;> exact Nat.mod_lt _ (by norm_num)

theorem sha1_length (msg : List Nat) : (sha1 msg).length = 20 := by
  simp [sha1, wordBytes]

theorem sha1_lt {b : Nat} {msg : List Nat} (h : b ∈ sha1 msg) : b < 256 := by
  simp only [sha1, List.mem_append] at h
  rcases h with (((h | h) | h) | h) | h <;> exact wordBytes_lt h

theorem hexEncode_length (bs : List Nat) : (hexEncode bs).length = 2 * bs.length := by
  induction bs with
  | nil => rfl
  | cons b rest ih =>
    simp only [hexEncode, List.flatMap_cons] at *
    simp [ih]
    omega

/-- Lowercase hexadecimal runes. -/
def isHexLower (c : Char) : Bool :=
  (48 ≤ c.toNat && c.toNat ≤ 57) || (97 ≤ c.toNat && c.toNat ≤ 102)

theorem hexDigit_hex : ∀ n, n < 16 → isHexLower (hexDigit n) = true := by decide

theorem hexEncode_hex {bs : List Nat} (hb : ∀ b ∈ bs, b < 256) :
    ∀ c ∈ hexEncode bs, isHexLower c = true := by
  intro c hc
  simp only [hexEncode, List.mem_flatMap, List.mem_cons, List.not_mem_nil,
    or_false] at hc
  rcases hc with ⟨b, hbmem, hc | hc⟩ <;> subst hc
  · have := hb b hbmem
    exact hexDigit_hex _ (by omega)
  · exact hexDigit_hex _ (Nat.mod_lt _ (by norm_num))

theorem BuildDocumentID_length (title text : Str) (ts : GoTime) :
    (BuildDocumentID title text ts).length = 40 := by
  unfold BuildDocumentID
  rw [hexEncode_length, sha1_length]

theorem BuildDocumentID_ne_nil (title text : Str) (ts : GoTime) :
    BuildDocumentID title text ts ≠ [] := by
  have h := BuildDocumentID_length title text ts
  intro hc
  rw [hc] at h
  cases h

/-- C8.  Document identity: `BuildDocumentID` is deterministic — equal
inputs with timestamps denoting the same instant (whatever their zone
offsets) give equal output — and always returns exactly 40 lowercase hex
runes, never the empty string; hence the worker's random-UUID fallback
branch guarded by `doc.ID == ""` is unreachable, and the document built by
the worker does not depend on the random identifier at all. -/
theorem C8_document_identity (title text : Str) (ts ts2 : GoTime)
    (cfg : WorkerCfg) (now : Int) (u1 u2 : Str) (m : RawNews) :
    (BuildDocumentID title text ts).length = 40 ∧
    (∀ c ∈ BuildDocumentID title text ts, isHexLower c = true) ∧
    BuildDocumentID title text ts ≠ [] ∧
    (ts.instant = ts2.instant →
      BuildDocumentID title text ts = BuildDocumentID title text ts2) ∧
    buildDoc cfg now u1 m = buildDoc cfg now u2 m ∧
    (buildDoc cfg now u1 m).id ≠ [] := by
  refine ⟨BuildDocumentID_length title text ts, ?_, BuildDocumentID_ne_nil title text ts,
    ?_, ?_, ?_⟩
  · exact hexEncode_hex (fun b hb => sha1_lt hb)
  · intro h
    unfold BuildDocumentID
    rw [show utcTime ts = utcTime ts2 from by simp [utcTime, h]]
  · simp [buildDoc, BuildDocumentID_ne_nil]
  · simp [buildDoc, BuildDocumentID_ne_nil]

theorem C8_witness :
    BuildDocumentID (str "t") (str "x") ⟨0, 0⟩ =
      BuildDocumentID (str "t") (str "x") ⟨0, 180⟩ ∧
    (BuildDocumentID (str "t") (str "x") ⟨0, 0⟩).length = 40 := by
  have h := C8_document_identity (str "t") (str "x") ⟨0, 0⟩ ⟨0, 180⟩ ⟨8, 4⟩ 0 [] []
    ⟨[], [], [], []⟩
  exact ⟨h.2.2.2.1 rfl, h.1⟩

theorem lookupA_mem {k : Str} {v : Int} : ∀ {l : List (Str × Int)},
    lookupA k l = some v → (k, v) ∈ l := by
  intro l
  induction l with
  | nil => intro h; cases h
  | cons p rest ih =>
    intro h
    simp only [lookupA] at h
    split_ifs at h with hp
    · rcases h with ⟨⟩
      have he : (k, p.2) = p := by rw [← hp]
      rw [he]
      exact List.mem_cons_self p rest
    · exact List.mem_cons_of_mem _ (ih h)

theorem mem_lookupA {k : Str} {v : Int} : ∀ {l : List (Str × Int)},
    (l.map Prod.fst).Nodup → (k, v) ∈ l → lookupA k l = some v := by
  intro l
  induction l with
  | nil => intro _ h; cases h
  | cons p rest ih =>
    intro hnd hmem
    simp only [List.map_cons, List.nodup_cons] at hnd
    simp only [lookupA]
    rcases List.mem_cons.mp hmem with heq | hmem2
    · rw [← heq]
      simp
    · split_ifs with hp
      · exfalso
        apply hnd.1
        have : (k, v).1 ∈ rest.map Prod.fst := List.mem_map_of_mem _ hmem2
        rw [← hp] at this
        exact this
      · exact ih hnd.2 hmem2

theorem mem_insertA {p : Str × Int} {k : Str} {v : Int} {l : List (Str × Int)}
    (h : p ∈ insertA k v l) : p = (k, v) ∨ (p ∈ l ∧ p.1 ≠ k) := by
  simp only [insertA, List.mem_cons, List.mem_filter, decide_eq_true_eq] at h
  rcases h with h | ⟨h1, h2⟩
  · exact Or.inl h
  · exact Or.inr ⟨h1, h2⟩

theorem mem_eraseA {p : Str × Int} {k : Str} {l : List (Str × Int)}
    (h : p ∈ eraseA k l) : p ∈ l ∧ p.1 ≠ k := by
  simp only [eraseA, List.mem_filter, decide_eq_true_eq] at h
  exact h

theorem insertA_nodup {k : Str} {v : Int} {l : List (Str × Int)}
    (h : (l.map Prod.fst).Nodup) : ((insertA k v l).map Prod.fst).Nodup := by
  simp only [insertA, List.map_cons, List.nodup_cons]
  constructor
  · intro hc
    rcases List.mem_map.mp hc with ⟨p, hp, he⟩
    exact absurd he (mem_eraseA hp).2
  · exact ((List.filter_sublist l).map Prod.fst).nodup h

theorem eraseA_nodup {k : Str} {l : List (Str × Int)}
    (h : (l.map Prod.fst).Nodup) : ((eraseA k l).map Prod.fst).Nodup :=
  ((List.filter_sublist l).map Prod.fst).nodup h

theorem compactLoop_spec (cutoff cap : Int) :
    ∀ (order items : List (Str × Int)),
      (items.map Prod.fst).Nodup → (∀ p ∈ items, p ∈ order) →
      (((compactLoop cutoff cap items order).1.map Prod.fst).Nodup ∧
        ∀ p ∈ (compactLoop cutoff cap items order).1,
          p ∈ (compactLoop cutoff cap items order).2) ∧
      (compactLoop cutoff cap items order).2 <:+ order ∧
      (((compactLoop cutoff cap items order).1 = [] ∧
          (compactLoop cutoff cap items order).2 = []) ∨
        ((((compactLoop cutoff cap items order).1.length : Int) ≤ cap ∧
          ∃ hd t, (compactLoop cutoff cap items order).2 = hd :: t ∧
            ¬(hd.2 < cutoff)))) := by
  intro order
  induction order with
  | nil =>
    intro items hnd hsub
    have hempty : items = [] := List.eq_nil_iff_forall_not_mem.mpr
      (fun p hp => List.not_mem_nil p (hsub p hp))
    subst hempty
    exact ⟨⟨by simp [compactLoop], by simp [compactLoop]⟩,
      List.nil_suffix, Or.inl ⟨rfl, rfl⟩⟩
  | cons oldest rest ih =>
    intro items hnd hsub
    by_cases hcond : (decide ((items.length : Int) > cap) ||
        decide (oldest.2 < cutoff)) = true
    · have hstep : compactLoop cutoff cap items (oldest :: rest) =
          compactLoop cutoff cap
            (match lookupA oldest.1 items with
             | some ts => if ts = oldest.2 then eraseA oldest.1 items else items
             | none => items) rest := by
        simp only [compactLoop, hcond, if_true]
      set items2 := (match lookupA oldest.1 items with
        | some ts => if ts = oldest.2 then eraseA oldest.1 items else items
        | none => items) with hitems2
      have hnd2 : (items2.map Prod.fst).Nodup := by
        rw [hitems2]
        cases hlk : lookupA oldest.1 items with
        | none => exact hnd
        | some ts =>
          dsimp only
          split_ifs
          · exact eraseA_nodup hnd
          · exact hnd
      have hsub2 : ∀ p ∈ items2, p ∈ rest := by
        intro p hp
        cases hlk : lookupA oldest.1 items with
        | none =>
          rw [hitems2, hlk] at hp
          rcases List.mem_cons.mp (hsub p hp) with heq | hm
          · exfalso
            subst heq
            rw [mem_lookupA hnd hp] at hlk
            cases hlk
          · exact hm
        | some ts =>
          rw [hitems2, hlk] at hp
          dsimp only at hp
          split_ifs at hp with hts
          · have h2 := mem_eraseA hp
            rcases List.mem_cons.mp (hsub p h2.1) with heq | hm
            · exact absurd (congrArg Prod.fst heq) h2.2
            · exact hm
          · rcases List.mem_cons.mp (hsub p hp) with heq | hm
            · exfalso
              subst heq
              rw [mem_lookupA hnd hp] at hlk
              rcases hlk with ⟨⟩
              exact hts rfl
            · exact hm
      have hres := ih items2 hnd2 hsub2
      rw [hstep]
      exact ⟨hres.1, hres.2.1.trans (List.suffix_cons oldest rest), hres.2.2⟩
    · have hcond2 : (decide ((items.length : Int) > cap) ||
          decide (oldest.2 < cutoff)) = false := by
        simpa using hcond
      have hstep : compactLoop cutoff cap items (oldest :: rest) =
          (items, oldest :: rest) := by
        simp only [compactLoop, hcond2, Bool.false_eq_true, if_false]
      rw [hstep]
      dsimp only
      simp only [Bool.or_eq_true, decide_eq_true_eq, not_or] at hcond
      exact ⟨⟨hnd, hsub⟩, List.suffix_refl _,
        Or.inr ⟨by omega, oldest, rest, rfl, by omega⟩⟩

/-- Well-formedness of a reachable cache state: map keys are distinct,
every map entry also sits in the history, the history is time-ordered, and
the map respects the capacity bound (capacity and ttl being the normalized
positive values). -/
structure CacheWf (c : Cache) : Prop where
  nodup : (c.items.map Prod.fst).Nodup
  sub : ∀ p ∈ c.items, p ∈ c.order
  sorted : c.order.Pairwise (fun a b => a.2 ≤ b.2)
  size : (c.items.length : Int) ≤ c.capacity
  capPos : 1 ≤ c.capacity
  ttlPos : 0 < c.ttl

theorem MarkSeen_items (c : Cache) (now : Int) (k : Str) :
    (MarkSeen c now k).items =
      (compactLoop (now - c.ttl) c.capacity (insertA k now c.items)
        (c.order ++ [(k, now)])).1 := rfl

theorem MarkSeen_order (c : Cache) (now : Int) (k : Str) :
    (MarkSeen c now k).order =
      (compactLoop (now - c.ttl) c.capacity (insertA k now c.items)
        (c.order ++ [(k, now)])).2 := rfl

theorem MarkSeen_wf {c : Cache} {now : Int} {k : Str} (hwf : CacheWf c)
    (hle : ∀ p ∈ c.order, p.2 ≤ now) :
    CacheWf (MarkSeen c now k) ∧ (∀ p ∈ (MarkSeen c now k).order, p.2 ≤ now) ∧
    (∀ p ∈ (MarkSeen c now k).items, now - p.2 ≤ c.ttl) := by
  have hnd1 : ((insertA k now c.items).map Prod.fst).Nodup := insertA_nodup hwf.nodup
  have hsub1 : ∀ p ∈ insertA k now c.items, p ∈ c.order ++ [(k, now)] := by
    intro p hp
    rcases mem_insertA hp with heq | ⟨hm, -⟩
    · exact List.mem_append_right _ (by rw [heq]; exact List.mem_singleton.mpr rfl)
    · exact List.mem_append_left _ (hwf.sub p hm)
  have hsorted1 : (c.order ++ [(k, now)]).Pairwise (fun a b => a.2 ≤ b.2) := by
    rw [List.pairwise_append]
    refine ⟨hwf.sorted, List.pairwise_singleton _ _, ?_⟩
    intro a ha b hb
    rw [List.mem_singleton.mp hb]
    exact hle a ha
  have hspec := compactLoop_spec (now - c.ttl) c.capacity (c.order ++ [(k, now)])
    (insertA k now c.items) hnd1 hsub1
  have hordmem : ∀ p ∈ (MarkSeen c now k).order, p ∈ c.order ++ [(k, now)] := by
    intro p hp
    rw [MarkSeen_order] at hp
    exact hspec.2.1.sublist.mem hp
  have htimes : ∀ p ∈ (MarkSeen c now k).order, p.2 ≤ now := by
    intro p hp
    rcases List.mem_append.mp (hordmem p hp) with hm | hm
    · exact hle p hm
    · rw [List.mem_singleton.mp hm]
  have hsortedR : (MarkSeen c now k).order.Pairwise (fun a b => a.2 ≤ b.2) := by
    rw [MarkSeen_order]
    exact List.Pairwise.sublist hspec.2.1.sublist hsorted1
  have hsizeR : (((MarkSeen c now k).items.length : Int)) ≤ c.capacity := by
    rw [MarkSeen_items]
    rcases hspec.2.2 with ⟨h1, -⟩ | ⟨h1, -⟩
    · rw [h1]
      simp only [List.length_nil, Int.ofNat_zero, Nat.cast_zero]
      have := hwf.capPos
      omega
    · exact h1
  refine ⟨⟨?_, ?_, hsortedR, hsizeR, hwf.capPos, hwf.ttlPos⟩, htimes, ?_⟩
  · rw [MarkSeen_items]
    exact hspec.1.1
  · intro p hp
    rw [MarkSeen_items, MarkSeen_order] at *
    exact hspec.1.2 p hp
  · intro p hp
    rw [MarkSeen_items] at hp
    have hpo := hspec.1.2 p hp
    rcases hspec.2.2 with ⟨-, h2⟩ | ⟨-, hd, t, heq, hge⟩
    · rw [h2] at hpo
      cases hpo
    · rw [heq] at hpo
      have hsortedO : (hd :: t).Pairwise (fun a b => a.2 ≤ b.2) := by
        rw [MarkSeen_order, heq] at hsortedR
        exact hsortedR
      rcases List.mem_cons.mp hpo with hph | hpt
      · rw [hph]; omega
      · have := (List.pairwise_cons.mp hsortedO).1 p hpt
        omega

/-- A cache call: `MarkSeen` or `IsSeen`, with the `time.Now()` instant it
observes. -/
inductive CacheOp where
  | mark (key : Str) (now : Int)
  | seen (key : Str) (now : Int)
deriving DecidableEq, Repr

/-- The instant a call observes. -/
def opTime : CacheOp → Int
  | .mark _ n => n
  | .seen _ n => n

/-- State change of one call (`IsSeen` reads without mutating). -/
def applyOp (c : Cache) : CacheOp → Cache
  | .mark k n => MarkSeen c n k
  | .seen _ _ => c

/-- Run a sequence of cache calls. -/
def runOps (c : Cache) : List CacheOp → Cache
  | [] => c
  | op :: ops => runOps (applyOp c op) ops

theorem runOps_append (c : Cache) (l1 l2 : List CacheOp) :
    runOps c (l1 ++ l2) = runOps (runOps c l1) l2 := by
  induction l1 generalizing c with
  | nil => rfl
  | cons op rest ih =>
    simp only [List.cons_append, runOps]
    exact ih (applyOp c op)

theorem applyOp_capacity (c : Cache) (op : CacheOp) :
    (applyOp c op).capacity = c.capacity ∧ (applyOp c op).ttl = c.ttl := by
  cases op with
  | mark k n => exact ⟨rfl, rfl⟩
  | seen k n => exact ⟨rfl, rfl⟩

theorem runOps_capacity (ops : List CacheOp) : ∀ (c : Cache),
    (runOps c ops).capacity = c.capacity ∧ (runOps c ops).ttl = c.ttl := by
  induction ops with
  | nil => intro c; exact ⟨rfl, rfl⟩
  | cons op rest ih =>
    intro c
    have h1 := applyOp_capacity c op
    have h2 := ih (applyOp c op)
    exact ⟨h2.1.trans h1.1, h2.2.trans h1.2⟩

theorem runOps_wf : ∀ (ops : List CacheOp) (c : Cache) (t : Int), CacheWf c →
    (∀ p ∈ c.order, p.2 ≤ t) → List.Chain (· ≤ ·) t (ops.map opTime) →
    CacheWf (runOps c ops) ∧
    (∀ p ∈ (runOps c ops).order, p.2 ≤ (ops.map opTime).getLastD t) := by
  intro ops
  induction ops with
  | nil =>
    intro c t hwf hle _
    exact ⟨hwf, by simpa using hle⟩
  | cons op rest ih =>
    intro c t hwf hle hchain
    rw [List.map_cons, List.chain_cons] at hchain
    have hle2 : ∀ p ∈ c.order, p.2 ≤ opTime op :=
      fun p hp => le_trans (hle p hp) hchain.1
    have hstep : CacheWf (applyOp c op) ∧
        (∀ p ∈ (applyOp c op).order, p.2 ≤ opTime op) := by
      cases op with
      | mark k2 n =>
        have hm := @MarkSeen_wf c n k2 hwf (by simpa [opTime] using hle2)
        exact ⟨hm.1, hm.2.1⟩
      | seen k n => exact ⟨hwf, hle2⟩
    have := ih (applyOp c op) (opTime op) hstep.1 hstep.2 hchain.2
    rw [List.map_cons, List.getLastD_cons]
    exact ⟨this.1, this.2⟩

theorem NewCache_wf (capacity ttl : Int) : CacheWf (NewCache capacity ttl) := by
  refine ⟨by simp [NewCache], by simp [NewCache], by simp [NewCache], ?_, ?_, ?_⟩
  · simp only [NewCache, List.length_nil, Nat.cast_zero]
    split_ifs <;> omega
  · simp only [NewCache]
    split_ifs <;> omega
  · simp only [NewCache]
    split_ifs <;> omega

theorem chain_le_append_last {l : List Int} {x t0 : Int}
    (h : List.Chain (fun a b => a ≤ b) t0 (l ++ [x])) :
    List.Chain (fun a b => a ≤ b) t0 l ∧ l.getLastD t0 ≤ x := by
  induction l generalizing t0 with
  | nil => simpa using h
  | cons a l2 ih =>
    rw [List.cons_append, List.chain_cons] at h
    have := ih h.2
    refine ⟨List.chain_cons.mpr ⟨h.1, this.1⟩, ?_⟩
    rw [List.getLastD_cons]
    exact this.2

/-- C3.  Dedupe cache invariant: starting from `NewCache capacity ttl`, any
monotone-in-time sequence of `MarkSeen`/`IsSeen` calls leaves (a) at most
`capacity` map entries (so in particular at most `capacity` live entries,
whatever instant "live" is judged at), and (b) immediately after a
`MarkSeen` at instant `now`, every map entry within `ttl` of `now` — the
timestamp-matching skip of stale history entries notwithstanding.  The
capacity and ttl are the normalized values (`capacity < 1 ⇒ 1`,
`ttl ≤ 0 ⇒ 1h`), as the sources default them. -/
theorem C3_cache_invariant (capacity ttl t0 : Int) (ops : List CacheOp)
    (k : Str) (now : Int)
    (hmono : List.Chain (fun a b => a ≤ b) t0
      ((ops ++ [CacheOp.mark k now]).map opTime)) :
    (((runOps (NewCache capacity ttl) ops).items.length : Int) ≤
      (NewCache capacity ttl).capacity) ∧
    (∀ t, (((runOps (NewCache capacity ttl) ops).items.filter
        (fun p => decide (t - p.2 ≤ (NewCache capacity ttl).ttl))).length : Int) ≤
      (NewCache capacity ttl).capacity) ∧
    (∀ p ∈ (runOps (NewCache capacity ttl) (ops ++ [CacheOp.mark k now])).items,
      now - p.2 ≤ (NewCache capacity ttl).ttl) := by
  have hsplit : (ops ++ [CacheOp.mark k now]).map opTime =
      ops.map opTime ++ [now] := by simp [opTime]
  rw [hsplit] at hmono
  obtain ⟨hchain, hlast⟩ := chain_le_append_last hmono
  obtain ⟨hwfF, hleF⟩ := runOps_wf ops (NewCache capacity ttl) t0
    (NewCache_wf capacity ttl) (by simp [NewCache]) hchain
  have hcapF := runOps_capacity ops (NewCache capacity ttl)
  refine ⟨?_, ?_, ?_⟩
  · rw [← hcapF.1]
    exact hwfF.size
  · intro t
    rw [← hcapF.1]
    calc (((runOps (NewCache capacity ttl) ops).items.filter
          (fun p => decide (t - p.2 ≤ (NewCache capacity ttl).ttl))).length : Int)
        ≤ ((runOps (NewCache capacity ttl) ops).items.length : Int) := by
          exact_mod_cast List.length_filter_le _ _
      _ ≤ _ := hwfF.size
  · intro p hp
    rw [runOps_append] at hp
    have hleNow : ∀ q ∈ (runOps (NewCache capacity ttl) ops).order, q.2 ≤ now :=
      fun q hq => le_trans (hleF q hq) hlast
    have := (MarkSeen_wf hwfF hleNow).2.2 p (by simpa [runOps, applyOp] using hp)
    rw [← hcapF.2]
    exact this

theorem C3_witness :
    (((runOps (NewCache 1 10)
        [CacheOp.mark (str "a") 0, CacheOp.seen (str "a") 1,
         CacheOp.mark (str "b") 2]).items.length : Int) ≤
      (NewCache 1 10).capacity) ∧
    (∀ p ∈ (runOps (NewCache 1 10)
        [CacheOp.mark (str "a") 0, CacheOp.seen (str "a") 1,
         CacheOp.mark (str "b") 2, CacheOp.mark (str "c") 3]).items,
      3 - p.2 ≤ (NewCache 1 10).ttl) := by
  have h := C3_cache_invariant 1 10 0
    [CacheOp.mark (str "a") 0, CacheOp.seen (str "a") 1, CacheOp.mark (str "b") 2]
    (str "c") 3 (by simp [List.chain_cons, opTime])
  exact ⟨h.1, h.2.2⟩

theorem buildDoc_const {cfg : WorkerCfg} {m : RawNews}
    (hts : isZeroTime (parseTimestamp m.timestamp) = false)
    (now1 now2 : Int) (u1 u2 : Str) :
    buildDoc cfg now1 u1 m = buildDoc cfg now2 u2 m := by
  simp only [buildDoc, hts, Bool.false_eq_true, if_false,
    BuildDocumentID_ne_nil]

theorem buildDoc_title (cfg : WorkerCfg) (now : Int) (u : Str) (m : RawNews) :
    (buildDoc cfg now u m).title =
      (if trimSpace m.title = [] ∧ trimSpace m.text ≠ []
       then GenerateTitleFromText (trimSpace m.text) 10
       else trimSpace m.title) := rfl

theorem IsSeen_fresh (capacity ttl now : Int) (id : Str) :
    IsSeen (NewCache capacity ttl) now id = false := rfl

theorem MarkSeen_fresh (capacity ttl now : Int) (id : Str) :
    MarkSeen (NewCache capacity ttl) now id =
      { items := [(id, now)], order := [(id, now)],
        capacity := (NewCache capacity ttl).capacity,
        ttl := (NewCache capacity ttl).ttl } := by
  have hcap : ¬((((insertA id now (NewCache capacity ttl).items).length : Int)) >
      (NewCache capacity ttl).capacity) := by
    have := (NewCache_wf capacity ttl).capPos
    simp only [insertA, NewCache, List.filter_nil, List.length_cons,
      List.length_nil]
    push_cast
    omega
  have httl : ¬(now < now - (NewCache capacity ttl).ttl) := by
    have := (NewCache_wf capacity ttl).ttlPos
    omega
  show ({ (NewCache capacity ttl) with
      items := _, order := _ } : Cache) = _
  simp only [MarkSeen, NewCache, insertA, List.filter_nil, List.nil_append,
    compactLoop]
  rw [if_neg (by
    simp only [Bool.or_eq_true, decide_eq_true_eq]
    push_neg
    constructor
    · simpa [insertA, NewCache] using hcap
    · simpa [NewCache] using httl)]

theorem processMessage_fresh (cfg : WorkerCfg) (capacity ttl now : Int)
    (u : Str) (m : RawNews)
    (hvalid : ¬(trimSpace m.title = [] ∧ trimSpace m.text = [])) :
    processMessage cfg (NewCache capacity ttl) now true u (some m) =
      ⟨none, [buildDoc cfg now u m],
        MarkSeen (NewCache capacity ttl) now (buildDoc cfg now u m).id⟩ := by
  simp only [processMessage, if_neg hvalid, IsSeen_fresh, Bool.false_eq_true,
    if_false, if_true]

theorem processMessage_duplicate (cfg : WorkerCfg) (cache : Cache) (now : Int)
    (indexOk : Bool) (u : Str) (m : RawNews)
    (hvalid : ¬(trimSpace m.title = [] ∧ trimSpace m.text = []))
    (hseen : IsSeen cache now (buildDoc cfg now u m).id = true) :
    processMessage cfg cache now indexOk u (some m) =
      ⟨none, [], cache⟩ := by
  simp only [processMessage, if_neg hvalid, hseen, if_true]

/-- C1 (amended).  Worker idempotence holds for payloads whose timestamp
string parses to a non-zero time: processing such a message twice in
succession from a fresh cache (successful indexer, the second processing no
later than the ttl after the first) makes exactly one `IndexNews` call —
the first call indexes, the second is dropped as a duplicate.  For an
empty or unparseable timestamp the code substitutes the per-call current
instant, so the two processings build different document ids and both
index (see the counterexample). -/
theorem C1_worker_idempotence (cfg : WorkerCfg) (capacity ttl : Int)
    (m : RawNews) (now1 now2 : Int) (u1 u2 : Str)
    (hvalid : ¬(trimSpace m.title = [] ∧ trimSpace m.text = []))
    (hts : isZeroTime (parseTimestamp m.timestamp) = false)
    (h12 : now1 ≤ now2)
    (httl : now2 - now1 ≤ (NewCache capacity ttl).ttl) :
    (processMessage cfg (NewCache capacity ttl) now1 true u1 (some m)).indexCalls.length
      = 1 ∧
    (processMessage cfg
        (processMessage cfg (NewCache capacity ttl) now1 true u1 (some m)).cache
        now2 true u2 (some m)).indexCalls = [] ∧
    (processMessage cfg
        (processMessage cfg (NewCache capacity ttl) now1 true u1 (some m)).cache
        now2 true u2 (some m)).err = none := by
  have h1 := processMessage_fresh cfg capacity ttl now1 u1 m hvalid
  set doc := buildDoc cfg now1 u1 m with hdoc
  have hdoc2 : buildDoc cfg now2 u2 m = doc := buildDoc_const hts now2 now1 u2 u1
  have hcache1 : (processMessage cfg (NewCache capacity ttl) now1 true u1
      (some m)).cache = MarkSeen (NewCache capacity ttl) now1 doc.id := by
    rw [h1]
  have hseen : IsSeen (MarkSeen (NewCache capacity ttl) now1 doc.id) now2
      (buildDoc cfg now2 u2 m).id = true := by
    rw [hdoc2, MarkSeen_fresh]
    have hl : lookupA doc.id [(doc.id, now1)] = some now1 := by
      simp [lookupA]
    simp only [IsSeen, hl, decide_eq_true_eq]
    exact httl
  have h2 := processMessage_duplicate cfg
    (MarkSeen (NewCache capacity ttl) now1 doc.id) now2 true u2 m hvalid hseen
  rw [hcache1, h2, h1]
  exact ⟨rfl, rfl, rfl⟩

/-- The original claim fails on an unparseable timestamp: the same message
(timestamp `"invalid"`) processed twice in succession — same fresh cache,
indexer succeeding — is indexed on BOTH calls when the two processings
observe different instants, because the substituted current instant enters
the document id. -/
theorem C1_counterexample :
    (processMessage ⟨8, 4⟩ (NewCache 100 3600000000000) 0 true []
        (some ⟨str "t", str "x", str "invalid", []⟩)).indexCalls.length = 1 ∧
    (processMessage ⟨8, 4⟩
        (processMessage ⟨8, 4⟩ (NewCache 100 3600000000000) 0 true []
          (some ⟨str "t", str "x", str "invalid", []⟩)).cache
        1000000000 true []
        (some ⟨str "t", str "x", str "invalid", []⟩)).indexCalls.length = 1 := by
  decide

theorem C1_witness :
    (processMessage ⟨8, 4⟩ (NewCache 100 3600000000000) 0 true []
        (some ⟨str "t", str "x", str "2024-01-02T15:04:05Z", []⟩)).indexCalls.length
      = 1 ∧
    (processMessage ⟨8, 4⟩
        (processMessage ⟨8, 4⟩ (NewCache 100 3600000000000) 0 true []
          (some ⟨str "t", str "x", str "2024-01-02T15:04:05Z", []⟩)).cache
        5000000000 true []
        (some ⟨str "t", str "x", str "2024-01-02T15:04:05Z", []⟩)).indexCalls = [] := by
  have h := C1_worker_idempotence ⟨8, 4⟩ 100 3600000000000
    ⟨str "t", str "x", str "2024-01-02T15:04:05Z", []⟩ 0 5000000000 [] []
    (by decide) (by decide) (by decide) (by decide)
  exact ⟨h.1, h.2.1⟩

/-- C2 (amended).  Title invariant: for a raw message whose trimmed text is
non-empty, the document built by `processMessage` has a non-empty title
provided the raw title is non-blank or title synthesis over the text yields
a non-empty string.  When the raw title is blank and the text consists only
of URLs (more generally, whenever the URL-stripped first sentence has no
words), the synthesized title is empty and the document is indexed with an
empty title (see the counterexample). -/
theorem C2_title_invariant (cfg : WorkerCfg) (now : Int) (u : Str) (m : RawNews)
    (htext : trimSpace m.text ≠ [])
    (h : trimSpace m.title ≠ [] ∨ GenerateTitleFromText (trimSpace m.text) 10 ≠ []) :
    (buildDoc cfg now u m).title ≠ [] := by
  rw [buildDoc_title]
  by_cases ht : trimSpace m.title = []
  · rw [if_pos ⟨ht, htext⟩]
    rcases h with h | h
    · exact absurd ht h
    · exact h
  · rw [if_neg (by intro hc; exact ht hc.1)]
    exact ht

/-- The original claim fails when the text consists only of URLs: the raw
title is blank, `GenerateTitleFromText` strips the URL and finds no words,
and the worker indexes a document whose `title` is empty even though the
trimmed text is non-empty. -/
theorem C2_counterexample :
    trimSpace (str "https://a.com") ≠ [] ∧
    (buildDoc ⟨8, 4⟩ 0 []
      ⟨[], str "https://a.com", str "2024-01-02T15:04:05Z", []⟩).title = [] ∧
    ((processMessage ⟨8, 4⟩ (NewCache 100 3600000000000) 0 true []
        (some ⟨[], str "https://a.com", str "2024-01-02T15:04:05Z", []⟩)).indexCalls.map
      NewsDocument.title) = [[]] := by
  decide

theorem C2_witness :
    (buildDoc ⟨8, 4⟩ 0 []
      ⟨[], str "Горящий тур в Турцию! Всего 30000 рублей.",
        str "2024-01-02T15:04:05Z", str "telegram"⟩).title ≠ [] := by
  exact C2_title_invariant ⟨8, 4⟩ 0 []
    ⟨[], str "Горящий тур в Турцию! Всего 30000 рублей.",
      str "2024-01-02T15:04:05Z", str "telegram"⟩
    (by decide) (Or.inr (by decide))

/-- C9.  Duplicate-path frame effect: when `processMessage` drops a message
because `cache.IsSeen(id)` is true, it returns success without indexing and
with the cache unchanged (no `MarkSeen`); consequently the dedupe window is
measured from the last successful index, and a duplicate arriving more than
ttl after the original index is indexed again. -/
theorem C9_duplicate_frame (cfg : WorkerCfg) (cache : Cache)
    (now : Int) (indexOk : Bool) (u : Str) (m : RawNews)
    (capacity ttl now1 now2 : Int) (u1 u2 : Str) (m2 : RawNews)
    (hvalid : ¬(trimSpace m.title = [] ∧ trimSpace m.text = []))
    (hseen : IsSeen cache now (buildDoc cfg now u m).id = true)
    (hvalid2 : ¬(trimSpace m2.title = [] ∧ trimSpace m2.text = []))
    (hts2 : isZeroTime (parseTimestamp m2.timestamp) = false)
    (hlate : (NewCache capacity ttl).ttl < now2 - now1) :
    processMessage cfg cache now indexOk u (some m) =
      ⟨none, [], cache⟩ ∧
    (processMessage cfg
        (processMessage cfg (NewCache capacity ttl) now1 true u1 (some m2)).cache
        now2 true u2 (some m2)).indexCalls.length = 1 ∧
    (processMessage cfg
        (processMessage cfg (NewCache capacity ttl) now1 true u1 (some m2)).cache
        now2 true u2 (some m2)).err = none := by
  refine ⟨processMessage_duplicate cfg cache now indexOk u m hvalid hseen, ?_⟩
  have h1 := processMessage_fresh cfg capacity ttl now1 u1 m2 hvalid2
  set doc := buildDoc cfg now1 u1 m2 with hdoc
  have hdoc2 : buildDoc cfg now2 u2 m2 = doc := buildDoc_const hts2 now2 now1 u2 u1
  have hcache1 : (processMessage cfg (NewCache capacity ttl) now1 true u1
      (some m2)).cache = MarkSeen (NewCache capacity ttl) now1 doc.id := by
    rw [h1]
  have hnotseen : IsSeen (MarkSeen (NewCache capacity ttl) now1 doc.id) now2
      (buildDoc cfg now2 u2 m2).id = false := by
    rw [hdoc2, MarkSeen_fresh]
    have hl : lookupA doc.id [(doc.id, now1)] = some now1 := by
      simp [lookupA]
    simp only [IsSeen, hl, decide_eq_false_iff_not]
    omega
  rw [hcache1]
  rw [hdoc2] at hnotseen
  simp only [processMessage, if_neg hvalid2, hdoc2, hnotseen, Bool.false_eq_true,
    if_false, if_true]
  exact ⟨rfl, trivial⟩

theorem C9_witness :
    processMessage ⟨8, 4⟩
        (MarkSeen (NewCache 100 3600000000000) 0
          (buildDoc ⟨8, 4⟩ 0 [] ⟨str "t", str "x", str "2024-01-02T15:04:05Z", []⟩).id)
        0 true [] (some ⟨str "t", str "x", str "2024-01-02T15:04:05Z", []⟩) =
      ⟨none, [],
        MarkSeen (NewCache 100 3600000000000) 0
          (buildDoc ⟨8, 4⟩ 0 [] ⟨str "t", str "x", str "2024-01-02T15:04:05Z", []⟩).id⟩ ∧
    (processMessage ⟨8, 4⟩
        (processMessage ⟨8, 4⟩ (NewCache 100 10) 0 true []
          (some ⟨str "t", str "x", str "2024-01-02T15:04:05Z", []⟩)).cache
        1000000000 true []
        (some ⟨str "t", str "x", str "2024-01-02T15:04:05Z", []⟩)).indexCalls.length
      = 1 := by
  have h := C9_duplicate_frame ⟨8, 4⟩
    (MarkSeen (NewCache 100 3600000000000) 0
      (buildDoc ⟨8, 4⟩ 0 [] ⟨str "t", str "x", str "2024-01-02T15:04:05Z", []⟩).id)
    0 true [] ⟨str "t", str "x", str "2024-01-02T15:04:05Z", []⟩
    100 10 0 1000000000 [] [] ⟨str "t", str "x", str "2024-01-02T15:04:05Z", []⟩
    (by decide) (by decide) (by decide) (by decide) (by decide)
  exact ⟨h.1, h.2.1⟩

theorem iat_neg : ∀ {s : Str}, indexAnyTerm s < 0 →
    s.takeWhile (fun c => !termChar c) = s := by
  intro s
  induction s with
  | nil => intro _; rfl
  | cons c cs ih =>
    intro h
    simp only [indexAnyTerm] at h
    split_ifs at h with h1 h2
    · omega
    · rw [List.takeWhile_cons, if_pos (by simp [h1]), ih h2]
    · omega

theorem iat_nil_iff {s : Str} (h : s = []) : indexAnyTerm s = -1 := by
  subst h; rfl

theorem iat_zero_head {c : Char} {cs : Str} (h : indexAnyTerm (c :: cs) = 0) :
    termChar c = true := by
  by_contra hc
  rw [Bool.not_eq_true] at hc
  simp only [indexAnyTerm, hc, Bool.false_eq_true, if_false] at h
  split_ifs at h <;> omega

theorem iat_pos : ∀ {s : Str}, 0 < indexAnyTerm s →
    s.takeWhile (fun c => !termChar c) = s.take (indexAnyTerm s).toNat ∧
    (indexAnyTerm s).toNat < s.length := by
  intro s
  induction s with
  | nil => intro h; simp [indexAnyTerm] at h
  | cons c cs ih =>
    intro h
    by_cases h1 : termChar c = true
    · exfalso; simp [indexAnyTerm, h1] at h
    · have h1' : termChar c = false := by simpa using h1
      by_cases h2 : indexAnyTerm cs < 0
      · exfalso
        simp only [indexAnyTerm, h1', Bool.false_eq_true, if_false, if_pos h2] at h
        omega
      · have hval : indexAnyTerm (c :: cs) = indexAnyTerm cs + 1 := by
          simp only [indexAnyTerm, h1', Bool.false_eq_true, if_false, if_neg h2]
        rw [hval]
        have htn : (indexAnyTerm cs + 1).toNat = (indexAnyTerm cs).toNat + 1 := by
          omega
        rw [htn, List.takeWhile_cons, if_pos (by simp [h1']), List.take_succ_cons]
        rcases lt_or_eq_of_le (not_lt.mp h2) with hpos | hzero
        · have hi := ih hpos
          refine ⟨by rw [hi.1], ?_⟩
          simp only [List.length_cons]
          omega
        · cases cs with
          | nil => exact absurd hzero.symm (by decide)
          | cons d ds =>
            have hd := iat_zero_head hzero.symm
            rw [← hzero]
            simp only [Int.toNat_zero, List.take_zero, List.takeWhile_cons]
            rw [if_neg (by simp [hd])]
            exact ⟨rfl, by simp⟩

/-- C7 (amended).  Title synthesis: `GenerateTitleFromText` strips URLs,
then uses the trimmed prefix before the first `.`/`!`/`?` only when that
first terminator occurs at a positive index — a leading terminator (or no
terminator at all) leaves the whole URL-stripped string — splits into
whitespace-separated words, and truncates to `maxWords` words suffixed with
`"..."` when `maxWords > 0` and there are more words; empty when no words
remain. -/
theorem C7_title_synthesis (text : Str) (maxWords : Int) :
    GenerateTitleFromText text maxWords = titleSpecAmended text maxWords := by
  by_cases htext : text = []
  · subst htext; rfl
  · simp only [GenerateTitleFromText, titleSpecAmended, if_neg htext]
    have hfs : (if 0 < indexAnyTerm (RemoveURLs text) then
        trimSpace ((RemoveURLs text).take (indexAnyTerm (RemoveURLs text)).toNat)
        else RemoveURLs text) =
        (if (RemoveURLs text).takeWhile (fun c => !termChar c) ≠ [] ∧
            (RemoveURLs text).takeWhile (fun c => !termChar c) ≠ RemoveURLs text
         then trimSpace ((RemoveURLs text).takeWhile (fun c => !termChar c))
         else RemoveURLs text) := by
      rcases lt_trichotomy (indexAnyTerm (RemoveURLs text)) 0 with hlt | heq | hgt
      · rw [if_neg (by omega), iat_neg hlt, if_neg (by simp)]
      · cases hnu : RemoveURLs text with
        | nil =>
          rw [hnu] at heq
          exact absurd heq (by decide)
        | cons c cs =>
          rw [hnu] at heq
          have hc := iat_zero_head heq
          rw [if_neg (by omega), List.takeWhile_cons, if_neg (by simp [hc])]
      · have hp := iat_pos hgt
        rw [if_pos hgt, hp.1, if_pos ?_]
        constructor
        · intro hcontra
          have := congrArg List.length hcontra
          simp only [List.length_take, List.length_nil] at this
          omega
        · intro hcontra
          have := congrArg List.length hcontra
          simp only [List.length_take] at this
          omega
    rw [hfs]

/-- The claim (and the spec's step 2) applies the first-sentence prefix
rule also when the terminator is the first rune; the code's `sentenceEnd >
0` guard does not: on `".a"` the claim's algorithm yields the empty title,
the code yields `".a"`. -/
theorem C7_counterexample :
    GenerateTitleFromText (str ".a") 10 = str ".a" ∧
    titleSpecClaim (str ".a") 10 = [] ∧
    GenerateTitleFromText (str ".a") 10 ≠ titleSpecClaim (str ".a") 10 := by
  decide

instance kwRel.total : IsTotal (Str × Nat) kwRel := by
  constructor
  intro p q
  rcases lt_trichotomy p.2 q.2 with h | h | h
  · exact Or.inr (Or.inl h)
  · rcases le_total p.1 q.1 with hw | hw
    · exact Or.inl (Or.inr ⟨h, hw⟩)
    · exact Or.inr (Or.inr ⟨h.symm, hw⟩)
  · exact Or.inl (Or.inl h)

instance kwRel.trans : IsTrans (Str × Nat) kwRel := by
  constructor
  intro p q r hpq hqr
  rcases hpq with h1 | ⟨h1, h1w⟩ <;> rcases hqr with h2 | ⟨h2, h2w⟩
  · exact Or.inl (by omega)
  · exact Or.inl (by omega)
  · exact Or.inl (by omega)
  · exact Or.inr ⟨by omega, le_trans h1w h2w⟩

theorem mem_qualifying {text : Str} {minLen : Int} {t : Str}
    (h : t ∈ qualifyingTokens text minLen) :
    ¬((t.length : Int) < minLen) ∧ t ∉ stopwords := by
  simp only [qualifyingTokens, List.mem_filter, Bool.and_eq_true,
    Bool.not_eq_true', decide_eq_false_iff_not] at h
  exact h.2

theorem kwSorted_mem {text : Str} {minLen : Int} {p : Str × Nat}
    (h : p ∈ kwSorted text minLen) :
    p.1 ∈ qualifyingTokens text minLen ∧
    p.2 = (qualifyingTokens text minLen).count p.1 := by
  have hperm := List.perm_insertionSort kwRel (kwPairs text minLen)
  have hp : p ∈ kwPairs text minLen := hperm.mem_iff.mp h
  simp only [kwPairs, List.mem_map] at hp
  rcases hp with ⟨w, hw, he⟩
  rw [← he]
  exact ⟨mem_dedupFirst.mp hw, rfl⟩

theorem kwPairs_fst (text : Str) (minLen : Int) :
    (kwPairs text minLen).map Prod.fst = dedupFirst (qualifyingTokens text minLen) := by
  unfold kwPairs
  generalize dedupFirst (qualifyingTokens text minLen) = l
  induction l with
  | nil => rfl
  | cons a l2 ih => simp only [List.map_cons, List.map_map] at *; rw [ih]

theorem kwSorted_fst_nodup (text : Str) (minLen : Int) :
    ((kwSorted text minLen).map Prod.fst).Nodup := by
  have hperm := List.perm_insertionSort kwRel (kwPairs text minLen)
  have hnd : ((kwPairs text minLen).map Prod.fst).Nodup := by
    rw [kwPairs_fst]
    exact nodup_dedupFirst
  exact ((hperm.map Prod.fst).nodup_iff).mpr hnd

theorem ExtractKeywords_sub {text : Str} {limit minLen : Int} {w : Str}
    (h : w ∈ ExtractKeywords text limit minLen) :
    w ∈ qualifyingTokens text minLen := by
  simp only [ExtractKeywords] at h
  split_ifs at h with h1 h2
  · cases h
  · cases h
  · simp only [List.mem_map] at h
    rcases h with ⟨p, hp, he⟩
    rw [← he]
    exact (kwSorted_mem ((List.take_sublist _ _).mem hp)).1

/-- C4.  Keyword extraction postcondition: no returned token has rune
length below `minLen` or is a stop-word; the result has at most `limit`
entries when `limit > 0`; `limit ≤ 0` or `limit` above the number of
distinct qualifying tokens returns exactly the qualifying tokens; and the
result is ordered by descending frequency with ties broken by ascending
lexicographic order. -/
theorem C4_extract_keywords_post (text : Str) (limit minLen : Int)
    (hmin : 0 ≤ minLen) :
    (∀ k ∈ ExtractKeywords text limit minLen,
      ¬((k.length : Int) < minLen) ∧ k ∉ stopwords) ∧
    (0 < limit → ((ExtractKeywords text limit minLen).length : Int) ≤ limit) ∧
    ((limit ≤ 0 ∨ ((dedupFirst (qualifyingTokens text minLen)).length : Int) < limit) →
      ∀ w, w ∈ ExtractKeywords text limit minLen ↔ w ∈ qualifyingTokens text minLen) ∧
    (ExtractKeywords text limit minLen).Pairwise (fun w1 w2 =>
      (qualifyingTokens text minLen).count w2 <
        (qualifyingTokens text minLen).count w1 ∨
      ((qualifyingTokens text minLen).count w1 =
        (qualifyingTokens text minLen).count w2 ∧ w1 < w2)) := by
  refine ⟨?_, ?_, ?_, ?_⟩
  · intro k hk
    exact mem_qualifying (ExtractKeywords_sub hk)
  · intro hpos
    simp only [ExtractKeywords]
    split_ifs with h1 h2
    · simp; omega
    · simp; omega
    · rw [List.length_map]
      have hlen := List.length_take (kwMax text limit minLen) (kwSorted text minLen)
      rw [hlen]
      simp only [kwMax]
      split_ifs with hc
      · rcases hc with hc | hc
        · omega
        · have : min (kwPairs text minLen).length (kwSorted text minLen).length ≤
              (kwPairs text minLen).length := min_le_left _ _
          omega
      · have : min limit.toNat (kwSorted text minLen).length ≤ limit.toNat :=
          min_le_left _ _
        omega
  · intro hall w
    simp only [ExtractKeywords]
    split_ifs with h1 h2
    · have : qualifyingTokens text minLen = [] := by
        have hclean : CleanText text = [] := List.map_eq_nil_iff.mp h1
        simp only [qualifyingTokens]
        rw [hclean]
        rfl
      rw [this]
    · rw [h2]
    · have hmx : kwMax text limit minLen = (kwPairs text minLen).length := by
        simp only [kwMax]
        rw [if_pos]
        rcases hall with h | h
        · exact Or.inl h
        · refine Or.inr ?_
          simp only [kwPairs, List.length_map]
          exact h
      have hslen : (kwSorted text minLen).length = (kwPairs text minLen).length :=
        (List.perm_insertionSort kwRel (kwPairs text minLen)).length_eq
      rw [hmx, ← hslen, List.take_length]
      constructor
      · intro hw
        simp only [List.mem_map] at hw
        rcases hw with ⟨p, hp, he⟩
        rw [← he]
        exact (kwSorted_mem hp).1
      · intro hw
        have hperm := List.perm_insertionSort kwRel (kwPairs text minLen)
        have : w ∈ (kwPairs text minLen).map Prod.fst := by
          rw [kwPairs_fst]
          exact mem_dedupFirst.mpr hw
        exact (hperm.map Prod.fst).mem_iff.mpr this
  · simp only [ExtractKeywords]
    split_ifs with h1 h2
    · exact List.Pairwise.nil
    · exact List.Pairwise.nil
    · rw [List.pairwise_map]
      have hsorted : (kwSorted text minLen).Sorted kwRel :=
        List.sorted_insertionSort kwRel (kwPairs text minLen)
      have htake : ((kwSorted text minLen).take
          (kwMax text limit minLen)).Pairwise kwRel :=
        List.Pairwise.sublist (List.take_sublist _ _) hsorted
      have hnd : (((kwSorted text minLen).take
          (kwMax text limit minLen)).map Prod.fst).Nodup :=
        List.Nodup.sublist ((List.take_sublist _ _).map Prod.fst)
          (kwSorted_fst_nodup text minLen)
      have hndp : ((kwSorted text minLen).take
          (kwMax text limit minLen)).Pairwise (fun p q => p.1 ≠ q.1) :=
        List.pairwise_map.mp hnd
      refine List.Pairwise.imp_of_mem ?_ (htake.and hndp)
      intro p q hp hq hpq
      have hp2 := (kwSorted_mem ((List.take_sublist _ _).mem hp)).2
      have hq2 := (kwSorted_mem ((List.take_sublist _ _).mem hq)).2
      rcases hpq.1 with h | ⟨hcnt, hle⟩
      · exact Or.inl (by rw [← hp2, ← hq2]; exact h)
      · exact Or.inr ⟨by rw [← hp2, ← hq2]; exact hcnt,
          lt_of_le_of_ne hle hpq.2⟩

theorem C4_witness :
    (∀ k ∈ ExtractKeywords
        (str "Тур Тур поездка поездка поездка море и и солнце") 3 3,
      ¬((k.length : Int) < 3) ∧ k ∉ stopwords) ∧
    ((ExtractKeywords (str "Тур Тур поездка поездка поездка море и и солнце")
        3 3).length : Int) ≤ 3 := by
  have h := C4_extract_keywords_post
    (str "Тур Тур поездка поездка поездка море и и солнце") 3 3 (by decide)
  exact ⟨h.1, h.2.1 (by decide)⟩

theorem htmlUnescape_no_amp : ∀ {s : Str}, '&' ∉ s → htmlUnescape s = s := by
  intro s
  induction s with
  | nil => intro _; rfl
  | cons c rest ih =>
    intro h
    have hc : c ≠ '&' := fun hce => h (by rw [hce]; exact List.mem_cons_self _ _)
    rw [htmlUnescape_cons_other rest hc, ih (fun hm => h (List.mem_cons_of_mem _ hm))]

theorem urlMatchLen_colon {s : Str} {len : Nat} (h : urlMatchLen s = some len) :
    ':' ∈ s := by
  simp only [urlMatchLen] at h
  split_ifs at h with h1 hr1 h2 hr2 <;>
    first
      | exact Option.noConfusion h
      | exact (List.isPrefixOf_iff_prefix.mp h1).subset
          (show ':' ∈ str "http://" from by decide)
      | exact (List.isPrefixOf_iff_prefix.mp h2).subset
          (show ':' ∈ str "https://" from by decide)

theorem RemoveURLs_no_colon : ∀ {s : Str}, ':' ∉ s → RemoveURLs s = s := by
  intro s
  induction s with
  | nil => intro _; rfl
  | cons c rest ih =>
    intro h
    cases hm : urlMatchLen (c :: rest) with
    | some len => exact absurd (urlMatchLen_colon hm) h
    | none =>
      rw [RemoveURLs_cons_nomatch hm, ih (fun hm2 => h (List.mem_cons_of_mem _ hm2))]

theorem trimLeft_suffix (s : Str) : trimLeft s <:+ s := List.dropWhile_suffix _

theorem trimRight_pref (s : Str) : trimRight s <+: s := by
  have h1 : List.dropWhile goIsSpace s.reverse <:+ s.reverse :=
    List.dropWhile_suffix goIsSpace
  have h2 := List.reverse_prefix.mpr h1
  rw [List.reverse_reverse] at h2
  exact h2

theorem trimSpace_infx (s : Str) : trimSpace s <:+: s :=
  List.IsInfix.trans (List.IsPrefix.isInfix (trimRight_pref (trimLeft s)))
    (List.IsSuffix.isInfix (trimLeft_suffix s))

theorem trimSpace_sublist (s : Str) : (trimSpace s).Sublist s :=
  List.IsInfix.sublist (trimSpace_infx s)

theorem dropWhile_head_not (p : Char → Bool) : ∀ (l : Str),
    ∀ c ∈ (l.dropWhile p).head?, p c = false := by
  intro l
  induction l with
  | nil => simp
  | cons a l2 ih =>
    rw [List.dropWhile_cons]
    split_ifs with ha
    · exact ih
    · intro c hc
      simp only [List.head?_cons, Option.mem_def, Option.some.injEq] at hc
      rw [← hc]
      simpa using ha

theorem trimSpace_head (s : Str) : ∀ c ∈ (trimSpace s).head?, goIsSpace c = false := by
  intro c hc
  have hc2 : c ∈ (trimRight (trimLeft s)).head? := hc
  rcases trimRight_pref (trimLeft s) with ⟨t, ht⟩
  have hhd : (trimLeft s).head? = some c := by
    rw [← ht]
    cases htr : trimRight (trimLeft s) with
    | nil =>
      rw [htr] at hc2
      simp at hc2
    | cons d ds =>
      rw [htr] at hc2
      simp only [List.head?_cons, Option.mem_def, Option.some.injEq] at hc2
      rw [← hc2]
      simp
  exact dropWhile_head_not goIsSpace s c hhd

theorem trimSpace_getLast (s : Str) :
    ∀ c ∈ (trimSpace s).getLast?, goIsSpace c = false := by
  intro c hc
  have hrev : (trimSpace s).getLast? =
      ((trimLeft s).reverse.dropWhile goIsSpace).head? := by
    show (((trimLeft s).reverse.dropWhile goIsSpace).reverse).getLast? = _
    have h3 := List.head?_reverse ((trimLeft s).reverse.dropWhile goIsSpace).reverse
    rw [List.reverse_reverse] at h3
    exact h3.symm
  rw [hrev] at hc
  exact dropWhile_head_not goIsSpace (trimLeft s).reverse c hc

theorem dropWhile_eq_self_of {p : Char → Bool} {l : Str}
    (h : ∀ c ∈ l.head?, p c = false) : l.dropWhile p = l := by
  cases l with
  | nil => rfl
  | cons a l2 =>
    have := h a (by simp)
    rw [List.dropWhile_cons, if_neg (by simp [this])]

theorem trimSpace_eq_self {s : Str} (h1 : ∀ c ∈ s.head?, goIsSpace c = false)
    (h2 : ∀ c ∈ s.getLast?, goIsSpace c = false) : trimSpace s = s := by
  show trimRight (trimLeft s) = s
  unfold trimRight trimLeft
  rw [dropWhile_eq_self_of h1]
  rw [dropWhile_eq_self_of (by rw [List.head?_reverse]; exact h2)]
  rw [List.reverse_reverse]

theorem cleanText_mem {x : Str} {c : Char} (h : c ∈ CleanText x) :
    c = ' ' ∨ goIsLetter c = true ∨ goIsNumber c = true := by
  unfold CleanText at h
  split_ifs at h with hx
  · cases h
  · have h2 := (trimSpace_sublist _).mem h
    rcases squashRuns_mem h2 with he | ⟨hrs, h3⟩
    · exact Or.inl he
    · rcases squashRuns_mem h3 with he | ⟨hpu, h4⟩
      · exact Or.inl he
      · right
        simp only [goPunct, Bool.not_eq_false', Bool.or_eq_true] at hpu
        rcases hpu with (h | h) | h
        · exact Or.inl h
        · exact Or.inr h
        · rw [h] at hrs; cases hrs

theorem cleanText_chain (x : Str) :
    (CleanText x).Chain'
      (fun a b => ¬(goRegexSpace a = true ∧ goRegexSpace b = true)) := by
  unfold CleanText
  split_ifs with hx
  · exact List.chain'_nil
  · exact List.Chain'.infix (squashRuns_chain _) (trimSpace_infx _)

/-- C6.  `CleanText` is idempotent: cleaning a cleaned string changes
nothing, because the output consists only of letters, digits and single
interior spaces with no leading or trailing whitespace, which every pipeline
stage fixes. -/
theorem C6_cleanText_idempotent (x : Str) :
    CleanText (CleanText x) = CleanText x := by
  by_cases hy : CleanText x = []
  · rw [hy]
    rfl
  · have hmem : ∀ c ∈ CleanText x,
        c = ' ' ∨ goIsLetter c = true ∨ goIsNumber c = true :=
      fun c hc => cleanText_mem hc
    have hamp : '&' ∉ CleanText x := by
      intro hm
      rcases hmem _ hm with h | h | h
      · exact absurd h (by decide)
      · exact absurd h (by decide)
      · exact absurd h (by decide)
    have hcolon : ':' ∉ CleanText x := by
      intro hm
      rcases hmem _ hm with h | h | h
      · exact absurd h (by decide)
      · exact absurd h (by decide)
      · exact absurd h (by decide)
    have hchain := cleanText_chain x
    have hx : x ≠ [] := fun h => hy (by rw [h]; rfl)
    have hshape : CleanText x =
        trimSpace (squashRuns goRegexSpace ' ' (squashRuns goPunct ' '
          (RemoveURLs (htmlUnescape x)))) := by
      unfold CleanText
      rw [if_neg hx]
    set y := CleanText x with hydef
    rw [show CleanText y =
        trimSpace (squashRuns goRegexSpace ' ' (squashRuns goPunct ' '
          (RemoveURLs (htmlUnescape y)))) from by
      unfold CleanText
      rw [if_neg hy]]
    rw [htmlUnescape_no_amp hamp, RemoveURLs_no_colon hcolon]
    have hpunct : squashRuns goPunct ' ' y = y := by
      apply squashRuns_fixpoint
      · intro c hc hp
        exfalso
        rcases hmem c hc with h | h | h
        · rw [h] at hp; exact absurd hp (by decide)
        · simp [goPunct, h] at hp
        · simp [goPunct, h] at hp
      · apply List.Pairwise.chain'
        apply List.pairwise_of_forall_mem_list
        intro a ha b hb hcontra
        rcases hmem a ha with h | h | h
        · rw [h] at hcontra; exact absurd hcontra.1 (by decide)
        · simp [goPunct, h] at hcontra
        · simp [goPunct, h] at hcontra
    rw [hpunct]
    have hcoll : squashRuns goRegexSpace ' ' y = y := by
      apply squashRuns_fixpoint
      · intro c hc hrs
        rcases hmem c hc with h | h | h
        · exact h
        · rw [goIsLetter_not_regexSpace h] at hrs; cases hrs
        · rw [goIsNumber_not_regexSpace h] at hrs; cases hrs
      · exact hchain
    rw [hcoll]
    apply trimSpace_eq_self
    · rw [hshape]
      exact trimSpace_head _
    · rw [hshape]
      exact trimSpace_getLast _
